import Mathlib

/-!
A shallow embedding of the in-memory virtual filesystem implemented by
the C sources `linux-commands.c` and `L2.c` of the pseudo-linux-commands
repository, together with proofs about the commands operating on it.

Modelling conventions:
* Heap-allocated `struct Dir` nodes are stored in an append-only arena
  `FS.nodes : List Dir`; a C pointer is the node's index in that list.
  Pointer identity is index equality.  The `parent` back pointer is an
  `Option Nat` (`none` for the root, as in the C sources where the root
  has `parent == NULL`).
* C strings are Lean `String`s; `strncpy(dst, src, NAME_LEN - 1)`
  followed by NUL-termination is `String.take (NAME_LEN - 1)`, and
  `strcmp(a, b) == 0` is string equality.
* Each command function mirrors the check order of its C source line by
  line and returns the (possibly unchanged) filesystem together with an
  error of the taxonomy used by the design document; the C code reports
  these errors as messages and returns before any mutation, so an error
  result always carries the unmodified filesystem.
* The two unbounded / bounded pointer walks (`free_dir` and the `pwd`
  ancestor loop) take an explicit fuel argument; `pwd_cmd` in `L2.c`
  literally bounds its loop by `MAX_DEPTH = 64`, so fuel `64` is that
  variant exactly, while the walk of `linux-commands.c` has no bound and
  corresponds to the limit for large fuel.
-/

namespace PL

/-- Capacity constant `NAME_LEN` of the C sources (stored name bytes incl. NUL). -/
def NAME_LEN : Nat := 32

/-- Capacity constant `MAX_FILES` of the C sources. -/
def MAX_FILES : Nat := 16

/-- Capacity constant `MAX_SUBDIRS` of the C sources. -/
def MAX_SUBDIRS : Nat := 16

/-- Bound `MAX_DEPTH` of the `pwd` ancestor walk in `L2.c`. -/
def MAX_DEPTH : Nat := 64

/-- Effect of `strncpy(dst, s, NAME_LEN - 1); dst[NAME_LEN - 1] = 0`:
the stored name is the argument truncated to its first `NAME_LEN - 1`
characters (characters model the bytes of the C strings). -/
def truncName (s : String) : String := String.mk (s.data.take (NAME_LEN - 1))

/-- The C `struct File`: name, size, permission tag and content buffer. -/
structure File where
  name : String
  size : Nat
  perm : String
  content : String
deriving DecidableEq, Repr

/-- The C `struct Dir`: name, parent pointer, ordered files and ordered
subdirectory pointers (pointers are arena indices). -/
structure Dir where
  name : String
  parent : Option Nat
  files : List File
  subdirs : List Nat
deriving DecidableEq, Repr

/-- The arena of all allocated directory nodes; a C `struct Dir *` is an
index into `nodes`.  Allocation (`malloc`) appends, nothing is removed
while the session runs. -/
structure FS where
  nodes : List Dir
deriving DecidableEq, Repr

/-- Dereference a directory pointer. -/
def getDir (fs : FS) (i : Nat) : Option Dir := fs.nodes[i]?

/-- Name of the directory node behind pointer `c` (total function; the
default is irrelevant because all stored pointers are valid). -/
def childDirName (fs : FS) (c : Nat) : String :=
  match getDir fs c with
  | some d => d.name
  | none => ""

/-- The C helper `find_file_index`: index of the first file of `d` whose
stored name compares equal (`strcmp`) to the full argument `n`. -/
def find_file_index (d : Dir) (n : String) : Option Nat :=
  d.files.findIdx? fun f => f.name == n

/-- The C helper `find_subdir_index`: index of the first subdirectory of
`d` whose stored name compares equal to the full argument `n`. -/
def find_subdir_index (fs : FS) (d : Dir) (n : String) : Option Nat :=
  d.subdirs.findIdx? fun c => childDirName fs c == n

/-- The C helper `create_dir` / `create_dir_node`: a fresh node with the
truncated name, the given parent pointer and empty child collections. -/
def create_dir (n : String) (parent : Option Nat) : Dir :=
  { name := truncName n, parent := parent, files := [], subdirs := [] }

/-- Error taxonomy of the design document; the C sources report these as
`puts`/`printf` messages and return before mutating anything. -/
inductive Err where
  | UsageError
  | NameCollision
  | CapacityExceeded
  | NotFound
deriving DecidableEq, Repr

/-- The `touch_cmd` of `L2.c`: file-name collision check, capacity
check, directory-name collision check, then append the new empty file
with truncated name, size `0`, tag `"rw-"` and empty content. -/
def touch_cmd (fs : FS) (cwd : Nat) (n : String) : FS × Option Err :=
  match getDir fs cwd with
  | none => (fs, some .NotFound)
  | some d =>
    if (find_file_index d n).isSome then (fs, some .NameCollision)
    else if MAX_FILES ≤ d.files.length then (fs, some .CapacityExceeded)
    else if (find_subdir_index fs d n).isSome then (fs, some .NameCollision)
    else
      ({ nodes := fs.nodes.set cwd { d with files := d.files ++
          [{ name := truncName n, size := 0, perm := "rw-", content := "" }] } }, none)

/-- The `touch_cmd` of `linux-commands.c`: combined collision check
first, then the capacity check, then the same append. -/
def touch_cmd_lc (fs : FS) (cwd : Nat) (n : String) : FS × Option Err :=
  match getDir fs cwd with
  | none => (fs, some .NotFound)
  | some d =>
    if (find_file_index d n).isSome ∨ (find_subdir_index fs d n).isSome then
      (fs, some .NameCollision)
    else if MAX_FILES ≤ d.files.length then (fs, some .CapacityExceeded)
    else
      ({ nodes := fs.nodes.set cwd { d with files := d.files ++
          [{ name := truncName n, size := 0, perm := "rw-", content := "" }] } }, none)

/-- The C `rm_cmd`: locate the file, then shift every later entry down
by one (`files[j] = files[j+1]`) and decrement the count — that loop is
exactly `List.eraseIdx`. -/
def rm_cmd (fs : FS) (cwd : Nat) (n : String) : FS × Option Err :=
  match getDir fs cwd with
  | none => (fs, some .NotFound)
  | some d =>
    match find_file_index d n with
    | none => (fs, some .NotFound)
    | some idx =>
      ({ nodes := fs.nodes.set cwd { d with files := d.files.eraseIdx idx } }, none)

/-- The C `mv_cmd`: source file must exist, destination must collide
with no file and no subdirectory, then only the name field of the source
entry is overwritten (truncated). -/
def mv_cmd (fs : FS) (cwd : Nat) (src dst : String) : FS × Option Err :=
  match getDir fs cwd with
  | none => (fs, some .NotFound)
  | some d =>
    match find_file_index d src with
    | none => (fs, some .NotFound)
    | some idx =>
      if (find_file_index d dst).isSome then (fs, some .NameCollision)
      else if (find_subdir_index fs d dst).isSome then (fs, some .NameCollision)
      else
        match d.files[idx]? with
        | none => (fs, some .NotFound)
        | some f =>
          ({ nodes := fs.nodes.set cwd
              { d with files := d.files.set idx { f with name := truncName dst } } },
           none)

/-- The C `mkdir_cmd`: capacity check first, then the combined collision
check, then allocation of a fresh node (the next arena index) that is
appended to the current directory's subdirectory collection. -/
def mkdir_cmd (fs : FS) (cwd : Nat) (n : String) : FS × Option Err :=
  match getDir fs cwd with
  | none => (fs, some .NotFound)
  | some d =>
    if MAX_SUBDIRS ≤ d.subdirs.length then (fs, some .CapacityExceeded)
    else if (find_subdir_index fs d n).isSome ∨ (find_file_index d n).isSome then
      (fs, some .NameCollision)
    else
      ({ nodes := (fs.nodes.set cwd { d with subdirs := d.subdirs ++ [fs.nodes.length] })
                    ++ [create_dir n (some cwd)] },
       none)

/-- The C `cd_cmd`: literal root token, `..` (no-op at the root), `.`,
otherwise a direct-child lookup; on failure the current directory is
returned unchanged. -/
def cd_cmd (fs : FS) (cwd : Nat) (arg : String) (root : Nat) : Nat × Option Err :=
  if arg == "/" then (root, none)
  else if arg == ".." then
    match getDir fs cwd with
    | some d =>
      match d.parent with
      | some p => (p, none)
      | none => (cwd, none)
    | none => (cwd, none)
  else if arg == "." then (cwd, none)
  else
    match getDir fs cwd with
    | none => (cwd, some .NotFound)
    | some d =>
      match find_subdir_index fs d arg with
      | some idx => (d.subdirs.getD idx cwd, none)
      | none => (cwd, some .NotFound)

/-- Listing produced by the C `ls_cmd` (short format): subdirectories
first, each suffixed by the separator, then files, both in insertion
order. -/
def ls_entries (fs : FS) (cwd : Nat) : List String :=
  match getDir fs cwd with
  | none => []
  | some d =>
    (d.subdirs.map fun c => childDirName fs c ++ "/") ++ d.files.map File.name

/-- Ancestor walk of `pwd_cmd`, parametrised by fuel: push the node's
name, move to the parent, stop on a null pointer or when the fuel (the
remaining capacity of the `parts` array) runs out.  With fuel
`MAX_DEPTH = 64` this is literally the bounded loop of `L2.c`
(`while (p != NULL && depth < MAX_DEPTH)`); the loop of
`linux-commands.c` has no fuel bound and is the stable value reached for
every sufficiently large fuel. -/
def pwdPartsAux (fs : FS) : Nat → Option Nat → List String
  | 0, _ => []
  | _, none => []
  | fuel + 1, some i =>
    match getDir fs i with
    | none => []
    | some d => d.name :: pwdPartsAux fs fuel d.parent

/-- Ancestor walk of `pwd_cmd` starting from a (non-null) current
directory pointer. -/
def pwdParts (fs : FS) (fuel : Nat) (i : Nat) : List String :=
  pwdPartsAux fs fuel (some i)

/-- Printing loop of `pwd_cmd` (`for i = depth-1 downto 0`): at index
`0` a part equal to the separator is printed bare, every other part is
printed followed by the separator whenever its index is positive. -/
def renderLoop (parts : List String) : Nat → String
  | 0 =>
    (match parts[0]? with
     | some s => if s == "/" then "/" else s
     | none => "")
  | i + 1 =>
    (match parts[i + 1]? with
     | some s => s ++ "/"
     | none => "") ++ renderLoop parts i

/-- Full output of the C `pwd_cmd`: the root itself prints the bare
separator, any other directory prints the rendered ancestor chain
(using the bounded walk of `L2.c`). -/
def pwd_render (fs : FS) (cwd : Nat) : String :=
  match getDir fs cwd with
  | none => ""
  | some d =>
    match d.parent with
    | none => "/"
    | some _ =>
      renderLoop (pwdParts fs MAX_DEPTH cwd) ((pwdParts fs MAX_DEPTH cwd).length - 1)

/-- Trace of `free` calls performed by the C `free_dir` /
`free_dir_recursive` with the given fuel: a null pointer frees nothing,
otherwise every subdirectory subtree is freed recursively, in order, and
the node itself is freed last. -/
def freeTrace (fs : FS) : Nat → Nat → List Nat
  | 0, _ => []
  | fuel + 1, i =>
    match getDir fs i with
    | none => []
    | some d => ((d.subdirs.map fun c => freeTrace fs fuel c).flatten) ++ [i]

/-- Proper descendants of a node, collected through the subdirectory
pointers with the given fuel (independent recursion used to state the
ordering property of `freeTrace`). -/
def descendants (fs : FS) : Nat → Nat → List Nat
  | 0, _ => []
  | fuel + 1, i =>
    match getDir fs i with
    | none => []
    | some d => d.subdirs ++ (d.subdirs.map fun c => descendants fs fuel c).flatten

/-- Commands of the dispatch loop that mutate or move through the tree
(the ones the reachability claims quantify over). -/
inductive Cmd where
  | touch (n : String)
  | mkdir (n : String)
  | rm (n : String)
  | mv (src dst : String)
  | cd (arg : String)
deriving DecidableEq, Repr

/-- Session state of the dispatch loop: the arena and the current
directory pointer (the root is arena index `0`, as created first by
`main`). -/
structure St where
  fs : FS
  cwd : Nat
deriving DecidableEq, Repr

/-- One dispatch of the main loop: run the command against the current
state; errors leave the filesystem untouched, `cd` is the only command
that moves the current directory. -/
def step (s : St) : Cmd → St × Option Err
  | .touch n =>
    let r := touch_cmd s.fs s.cwd n
    ({ s with fs := r.1 }, r.2)
  | .mkdir n =>
    let r := mkdir_cmd s.fs s.cwd n
    ({ s with fs := r.1 }, r.2)
  | .rm n =>
    let r := rm_cmd s.fs s.cwd n
    ({ s with fs := r.1 }, r.2)
  | .mv a b =>
    let r := mv_cmd s.fs s.cwd a b
    ({ s with fs := r.1 }, r.2)
  | .cd a =>
    let r := cd_cmd s.fs s.cwd a 0
    ({ s with cwd := r.1 }, r.2)

/-- Run a command sequence from a state. -/
def run (s : St) : List Cmd → St
  | [] => s
  | c :: cs => run (step s c).1 cs

/-- Outcomes reported by a command sequence, in order. -/
def runOuts (s : St) : List Cmd → List (Option Err)
  | [] => []
  | c :: cs => (step s c).2 :: runOuts (step s c).1 cs

/-- Initial state built by `main`: the arena holds exactly the root
(name `"/"`, no parent), and the current directory is the root. -/
def initSt : St :=
  { fs := { nodes := [create_dir "/" none] }, cwd := 0 }

/-! ### Basic helper lemmas about the search primitives and the arena -/

/-- A valid directory pointer is an in-range arena index. -/
theorem getDir_lt {fs : FS} {i : Nat} {d : Dir} (h : getDir fs i = some d) :
    i < fs.nodes.length := by
  rcases List.getElem?_eq_some_iff.mp h with ⟨hlt, _⟩
  exact hlt

/-- Characterisation of a failed file search: no stored file name
compares equal to the full argument. -/
theorem find_file_index_eq_none_iff {d : Dir} {n : String} :
    find_file_index d n = none ↔ ∀ f ∈ d.files, f.name ≠ n := by
  unfold find_file_index
  rw [List.findIdx?_eq_none_iff]
  constructor
  · intro h f hf
    have := h f hf
    simpa using this
  · intro h f hf
    simpa using h f hf

/-- Characterisation of a failed subdirectory search: no stored
subdirectory name compares equal to the full argument. -/
theorem find_subdir_index_eq_none_iff {fs : FS} {d : Dir} {n : String} :
    find_subdir_index fs d n = none ↔ ∀ c ∈ d.subdirs, childDirName fs c ≠ n := by
  unfold find_subdir_index
  rw [List.findIdx?_eq_none_iff]
  constructor
  · intro h c hc
    have := h c hc
    simpa using this
  · intro h c hc
    simpa using h c hc

/-- Replacing the node behind `cwd` by a node with the same name leaves
every node name — hence `childDirName` everywhere — unchanged. -/
theorem childDirName_set {fs : FS} {cwd : Nat} {d : Dir} (d' : Dir)
    (hd : getDir fs cwd = some d) (hname : d'.name = d.name) (c : Nat) :
    childDirName { nodes := fs.nodes.set cwd d' } c = childDirName fs c := by
  unfold childDirName getDir
  by_cases hc : cwd = c
  · subst hc
    rw [List.getElem?_set_self (getDir_lt hd)]
    unfold getDir at hd
    rw [hd]
    exact hname
  · rw [List.getElem?_set_ne hc]

/-- Appending fresh nodes to the arena leaves the names of the existing
nodes unchanged. -/
theorem childDirName_append (l extra : List Dir) (c : Nat) (hc : c < l.length) :
    childDirName { nodes := l ++ extra } c = childDirName { nodes := l } c := by
  unfold childDirName getDir
  rw [List.getElem?_append_left hc]

/-- Variant of `List.getElem?_concat_length` taking the length equation
as a hypothesis. -/
theorem getElem_concat_of_length {α : Type _} {l : List α} {a : α} {m : Nat}
    (h : l.length = m) : (l ++ [a])[m]? = some a := by
  subst h
  exact List.getElem?_concat_length l a

/-- Extensionality for `List.findIdx?`: predicates agreeing on the list
give the same search result. -/
theorem findIdx_ext {α : Type _} {p q : α → Bool} :
    ∀ (l : List α) (i : Nat), (∀ a ∈ l, p a = q a) →
      l.findIdx? p i = l.findIdx? q i := by
  intro l
  induction l with
  | nil => intro i _; rfl
  | cons x xs ih =>
    intro i h
    rw [List.findIdx?_cons, List.findIdx?_cons, h x (List.mem_cons_self x xs),
      ih (i + 1) fun a ha => h a (List.mem_cons_of_mem x ha)]

/-- A subdirectory search only looks at the names of the listed
children, so it is stable under any arena change preserving those. -/
theorem find_subdir_index_congr {fs fs' : FS} {d : Dir} {n : String}
    (h : ∀ c ∈ d.subdirs, childDirName fs' c = childDirName fs c) :
    find_subdir_index fs' d n = find_subdir_index fs d n := by
  unfold find_subdir_index
  exact findIdx_ext d.subdirs 0 fun c hc => by rw [h c hc]

/-! ### Claim C1: output of `pwd` after `mkdir a; cd a; mkdir b; cd b` -/

set_option maxRecDepth 8000

/-- Claim C1 (code bug): the claim and the repository README say that
`pwd` after `mkdir a` → `cd a` → `mkdir b` → `cd b` renders exactly
`/a/b`, but the print loop of both C `pwd_cmd` variants special-cases
index `0` (the deepest segment) instead of the last index (the root), so
the root's stored name `"/"` is printed as an ordinary segment followed
by a separator: the program actually prints `//a/b`. -/
theorem C1_pwd_renders_double_separator :
    pwd_render (run initSt [.mkdir "a", .cd "a", .mkdir "b", .cd "b"]).fs
        (run initSt [.mkdir "a", .cd "a", .mkdir "b", .cd "b"]).cwd = "//a/b" ∧
    "//a/b" ≠ "/a/b" := by
  exact ⟨by decide, by decide⟩

/-! ### Claim C4: the special cases of `cd` -/

/-- Claim C4: `cd` with an argument that is none of the three special
tokens and names no direct child directory fails with `NotFound` and
leaves the current directory unchanged; `cd ..` at the root (the
parentless node) returns the current node itself without an error;
`cd .` always returns the current directory; `cd /` returns the root
handle. -/
theorem C4_cd_special_cases (fs : FS) (cwd root : Nat) :
    (∀ arg d, getDir fs cwd = some d →
      arg ≠ "/" → arg ≠ "." → arg ≠ ".." →
      find_subdir_index fs d arg = none →
      cd_cmd fs cwd arg root = (cwd, some Err.NotFound)) ∧
    (∀ d, getDir fs cwd = some d → d.parent = none →
      cd_cmd fs cwd ".." root = (cwd, none)) ∧
    cd_cmd fs cwd "." root = (cwd, none) ∧
    cd_cmd fs cwd "/" root = (root, none) := by
  refine ⟨?_, ?_, ?_, ?_⟩
  · intro arg d hd h1 h2 h3 hfind
    simp [cd_cmd, hd, hfind, h1, h2, h3]
  · intro d hd hp
    simp [cd_cmd, hd, hp]
  · simp [cd_cmd]
  · simp [cd_cmd]

/-- Witness for C4 at the initial state: `cd x` is `NotFound` and stays
at the root, `cd ..`, `cd .` and `cd /` all yield the root. -/
theorem C4_cd_special_cases_witness :
    cd_cmd initSt.fs 0 "x" 0 = (0, some Err.NotFound) ∧
    cd_cmd initSt.fs 0 ".." 0 = (0, none) ∧
    cd_cmd initSt.fs 0 "." 0 = (0, none) ∧
    cd_cmd initSt.fs 0 "/" 0 = (0, none) := by
  obtain ⟨h1, h2, h3, h4⟩ := C4_cd_special_cases initSt.fs 0 0
  exact ⟨h1 "x" (create_dir "/" none) rfl (by decide) (by decide) (by decide) (by decide),
    h2 (create_dir "/" none) rfl rfl, h3, h4⟩

/-! ### Claim C5: identity-preserving `mkdir`/`cd`/`cd ..` round trip -/

/-- Facts extracted from a successful `mkdir`: the capacity check and
both collision checks passed, and the result state is the arena with the
fresh node appended and registered in the issuing directory. -/
theorem mkdir_success_elim {fs fs1 : FS} {cwd : Nat} {d : Dir} {n : String}
    (hd : getDir fs cwd = some d) (h : mkdir_cmd fs cwd n = (fs1, none)) :
    d.subdirs.length < MAX_SUBDIRS ∧
    find_subdir_index fs d n = none ∧
    find_file_index d n = none ∧
    fs1 = { nodes := (fs.nodes.set cwd { d with subdirs := d.subdirs ++ [fs.nodes.length] })
                      ++ [create_dir n (some cwd)] } := by
  unfold mkdir_cmd at h
  simp only [hd] at h
  split_ifs at h with hcap hcol
  · simp at h
  · simp at h
  · rcases not_or.mp hcol with ⟨hsub, hfile⟩
    refine ⟨Nat.lt_of_not_le hcap, ?_, ?_, ?_⟩
    · exact Option.not_isSome_iff_eq_none.mp (by simpa using hsub)
    · exact Option.not_isSome_iff_eq_none.mp (by simpa using hfile)
    · exact (congrArg Prod.fst h).symm

/-- Claim C5 (amended): if the current directory stores only valid child
pointers, and the fresh name is neither a special `cd` token nor long
enough to be truncated, then after a successful `mkdir n` the sequence
`cd n` then `cd ..` returns exactly the original directory handle:
`cd n` yields precisely the pointer of the freshly allocated node (the
next arena index) and `cd ..` follows its parent pointer back to the
issuing directory. -/
theorem C5_mkdir_cd_roundtrip (fs : FS) (cwd root : Nat) (d : Dir) (n : String) (fs1 : FS)
    (hd : getDir fs cwd = some d)
    (hvalid : ∀ c ∈ d.subdirs, c < fs.nodes.length)
    (hshort : truncName n = n)
    (h1 : n ≠ "/") (h2 : n ≠ ".") (h3 : n ≠ "..")
    (hmk : mkdir_cmd fs cwd n = (fs1, none)) :
    cd_cmd fs1 cwd n root = (fs.nodes.length, none) ∧
    cd_cmd fs1 fs.nodes.length ".." root = (cwd, none) := by
  obtain ⟨hcap, hsub, hfile, hfs1⟩ := mkdir_success_elim hd hmk
  have hcwdlt : cwd < fs.nodes.length := getDir_lt hd
  have hsetlen : (fs.nodes.set cwd { d with subdirs := d.subdirs ++ [fs.nodes.length] }).length
      = fs.nodes.length := List.length_set fs.nodes _ _
  have hgd1 : getDir fs1 cwd = some { d with subdirs := d.subdirs ++ [fs.nodes.length] } := by
    show fs1.nodes[cwd]? = _
    rw [hfs1]
    show ((fs.nodes.set cwd { d with subdirs := d.subdirs ++ [fs.nodes.length] })
        ++ [create_dir n (some cwd)])[cwd]? = _
    rw [List.getElem?_append_left (by rw [hsetlen]; exact hcwdlt),
      List.getElem?_set_self hcwdlt]
  have hgdnew : getDir fs1 fs.nodes.length = some (create_dir n (some cwd)) := by
    show fs1.nodes[fs.nodes.length]? = _
    rw [hfs1]
    show ((fs.nodes.set cwd { d with subdirs := d.subdirs ++ [fs.nodes.length] })
        ++ [create_dir n (some cwd)])[fs.nodes.length]? = _
    exact getElem_concat_of_length hsetlen
  have hnames : ∀ c ∈ d.subdirs, childDirName fs1 c = childDirName fs c := by
    intro c hc
    have hclt : c < fs.nodes.length := hvalid c hc
    rw [hfs1]
    have h₁ := childDirName_append
      (fs.nodes.set cwd { d with subdirs := d.subdirs ++ [fs.nodes.length] })
      [create_dir n (some cwd)] c (by rw [hsetlen]; exact hclt)
    exact h₁.trans
      (childDirName_set { d with subdirs := d.subdirs ++ [fs.nodes.length] } hd rfl c)
  have hnewname : childDirName fs1 fs.nodes.length = n := by
    unfold childDirName
    rw [hgdnew]
    exact hshort
  have hfind1 : find_subdir_index fs1 { d with subdirs := d.subdirs ++ [fs.nodes.length] } n
      = some d.subdirs.length := by
    show (d.subdirs ++ [fs.nodes.length]).findIdx? (fun c => childDirName fs1 c == n) = _
    rw [List.findIdx?_append]
    have hleft : d.subdirs.findIdx? (fun c => childDirName fs1 c == n) = none := by
      rw [findIdx_ext d.subdirs 0 fun c hc => by rw [hnames c hc]]
      exact hsub
    have hright : [fs.nodes.length].findIdx? (fun c => childDirName fs1 c == n) = some 0 := by
      simp [List.findIdx?_cons, hnewname]
    rw [hleft, hright]
    simp
  refine ⟨?_, ?_⟩
  · simp only [cd_cmd, beq_iff_eq, h1, h2, h3, if_false, hgd1, hfind1]
    simp [List.getD_eq_getElem?_getD, List.getElem?_concat_length]
  · unfold cd_cmd
    rw [if_neg (by decide), if_pos (by decide), hgdnew]
    rfl

/-- Counterexample to C5 as stated: from the directory handle `1`
(reached by `mkdir a; cd a`), `mkdir .` succeeds — `"."` is a perfectly
acceptable fresh directory name — yet `cd .` is the "stay here" special
token and `cd ..` then moves to the parent `0`, so the round trip does
not return to the original handle `1`. -/
theorem C5_roundtrip_counterexample :
    (step (run initSt [.mkdir "a", .cd "a"]) (.mkdir ".")).2 = none ∧
    (run initSt [.mkdir "a", .cd "a"]).cwd = 1 ∧
    (run initSt [.mkdir "a", .cd "a", .mkdir ".", .cd ".", .cd ".."]).cwd = 0 := by
  exact ⟨by decide, by decide, by decide⟩

/-- Witness for C5: `mkdir a` at the freshly created root, then `cd a`
and `cd ..`, lands back on handle `0`. -/
theorem C5_mkdir_cd_roundtrip_witness :
    cd_cmd (mkdir_cmd initSt.fs 0 "a").1 0 "a" 0 = (1, none) ∧
    cd_cmd (mkdir_cmd initSt.fs 0 "a").1 1 ".." 0 = (0, none) := by
  have h := C5_mkdir_cd_roundtrip initSt.fs 0 0 (create_dir "/" none) "a"
    (mkdir_cmd initSt.fs 0 "a").1 rfl (by intro c hc; simp [create_dir] at hc)
    (by decide) (by decide) (by decide) (by decide) (by decide)
  exact h

/-! ### Success and failure shapes of the file commands -/

/-- A located file exists and bears the searched-for name. -/
theorem find_file_index_some {d : Dir} {n : String} {i : Nat}
    (h : find_file_index d n = some i) :
    ∃ f, d.files[i]? = some f ∧ f.name = n := by
  unfold find_file_index at h
  rw [List.findIdx?_eq_some_iff_getElem] at h
  rcases h with ⟨hlt, hp, _⟩
  exact ⟨d.files[i], by simp, by simpa using hp⟩

/-- Shape of a fresh, in-capacity `touch`: the new empty file is
appended to the file collection of the current directory. -/
theorem touch_fresh_success {fs : FS} {cwd : Nat} {d : Dir} {n : String}
    (hd : getDir fs cwd = some d)
    (hfile : find_file_index d n = none)
    (hcap : d.files.length < MAX_FILES)
    (hsub : find_subdir_index fs d n = none) :
    touch_cmd fs cwd n = ({ nodes := fs.nodes.set cwd { d with files := d.files ++
      [{ name := truncName n, size := 0, perm := "rw-", content := "" }] } }, none) := by
  unfold touch_cmd
  simp only [hd, hfile, hsub, Option.isSome_none, Bool.false_eq_true, if_false]
  rw [if_neg (Nat.not_le.mpr hcap)]

/-- Shape of a failed `rm`: no mutation, `NotFound` reported. -/
theorem rm_notfound {fs : FS} {cwd : Nat} {d : Dir} {n : String}
    (hd : getDir fs cwd = some d)
    (hfind : find_file_index d n = none) :
    rm_cmd fs cwd n = (fs, some Err.NotFound) := by
  unfold rm_cmd
  simp only [hd, hfind]

/-- Shape of a successful `rm`: the C shifting loop removes exactly the
located index, keeping the collection contiguous and order-preserving
(`take idx ++ drop (idx + 1)`). -/
theorem rm_shifts_down {fs : FS} {cwd : Nat} {d : Dir} {n : String} {idx : Nat}
    (hd : getDir fs cwd = some d)
    (hfind : find_file_index d n = some idx) :
    rm_cmd fs cwd n =
      ({ nodes := fs.nodes.set cwd
           ({ d with files := d.files.take idx ++ d.files.drop (idx + 1) }) }, none) := by
  unfold rm_cmd
  simp only [hd, hfind]
  rw [List.eraseIdx_eq_take_drop_succ]

/-! ### Claim C6: `mv` destination collision and rename frame -/

/-- Claim C6: when the current directory holds a file named `src` at
index `idx`, `mv src dst` with `dst` already naming a file or a
sub-directory fails with `NameCollision` and returns the filesystem
untouched (so the entry of `src` keeps its name, tag and size); when
both collision checks pass, the rename rewrites exactly the name field
of that one entry — size, permission tag and content of the entry, all
other files, the subdirectory collection and every other directory node
are unchanged. -/
theorem C6_mv_collision_and_frame (fs : FS) (cwd : Nat) (d : Dir) (src dst : String)
    (idx : Nat) (hd : getDir fs cwd = some d)
    (hsrc : find_file_index d src = some idx) :
    (((find_file_index d dst).isSome ∨ (find_subdir_index fs d dst).isSome) →
       mv_cmd fs cwd src dst = (fs, some Err.NameCollision)) ∧
    (find_file_index d dst = none → find_subdir_index fs d dst = none →
       ∃ f, d.files[idx]? = some f ∧
         mv_cmd fs cwd src dst =
           ({ nodes := fs.nodes.set cwd
               { d with files := d.files.set idx { f with name := truncName dst } } }, none) ∧
         File.size { f with name := truncName dst } = f.size ∧
         File.perm { f with name := truncName dst } = f.perm ∧
         File.content { f with name := truncName dst } = f.content ∧
         (∀ j, j ≠ idx → (d.files.set idx { f with name := truncName dst })[j]? = d.files[j]?) ∧
         ({ d with files := d.files.set idx { f with name := truncName dst } } : Dir).subdirs
           = d.subdirs ∧
         (∀ k, k ≠ cwd →
            getDir
                { nodes := fs.nodes.set cwd
                    ({ d with files := d.files.set idx { f with name := truncName dst } }) }
                k
              = getDir fs k)) := by
  constructor
  · intro hcol
    unfold mv_cmd
    simp only [hd, hsrc]
    by_cases hf : (find_file_index d dst).isSome = true
    · rw [if_pos hf]
    · rw [if_neg hf, if_pos (hcol.resolve_left hf)]
  · intro hdf hds
    obtain ⟨f, hf, _⟩ := find_file_index_some hsrc
    refine ⟨f, hf, ?_, rfl, rfl, rfl, ?_, rfl, ?_⟩
    · unfold mv_cmd
      simp only [hd, hsrc, hdf, hds, Option.isSome_none, Bool.false_eq_true, if_false, hf]
    · intro j hj
      exact List.getElem?_set_ne (fun hh => hj hh.symm)
    · intro k hk
      unfold getDir
      exact List.getElem?_set_ne (fun hh => hk hh.symm)

/-- Witness for C6 in the directory built by `touch old; mkdir s`:
renaming `old` onto the directory name `s` collides and leaves the
state untouched, renaming it to the fresh name `new` succeeds. -/
theorem C6_mv_witness :
    mv_cmd (run initSt [.touch "old", .mkdir "s"]).fs 0 "old" "s"
      = ((run initSt [.touch "old", .mkdir "s"]).fs, some Err.NameCollision) ∧
    (mv_cmd (run initSt [.touch "old", .mkdir "s"]).fs 0 "old" "new").2 = none := by
  have hcol := (C6_mv_collision_and_frame (run initSt [.touch "old", .mkdir "s"]).fs 0
      { name := "/", parent := none,
        files := [{ name := "old", size := 0, perm := "rw-", content := "" }],
        subdirs := [1] } "old" "s" 0 (by decide) (by decide)).1
  have hok := (C6_mv_collision_and_frame (run initSt [.touch "old", .mkdir "s"]).fs 0
      { name := "/", parent := none,
        files := [{ name := "old", size := 0, perm := "rw-", content := "" }],
        subdirs := [1] } "old" "new" 0 (by decide) (by decide)).2
  refine ⟨hcol (Or.inr (by decide)), ?_⟩
  obtain ⟨f, hf, heq, _⟩ := hok (by decide) (by decide)
  rw [heq]

/-! ### Claim C7: `touch f`, `rm f`, empty listing, second `rm` fails -/

/-- Claim C7 (amended): in an otherwise-empty directory, for a file name
that is not altered by truncation, `touch f` then `rm f` succeed and
produce an empty listing, and a second `rm f` fails with `NotFound`;
in general a successful `rm` removes exactly the located entry and
shifts every later entry down by one (`take idx ++ drop (idx + 1)`),
keeping the collection contiguous and order-preserving. -/
theorem C7_touch_rm_empty_listing (s : St) (d : Dir) (f : String)
    (hd : getDir s.fs s.cwd = some d)
    (hfiles : d.files = []) (hsubs : d.subdirs = [])
    (hshort : truncName f = f) :
    runOuts s [.touch f, .rm f, .rm f] = [none, none, some Err.NotFound] ∧
    ls_entries (run s [.touch f, .rm f]).fs s.cwd = [] ∧
    (∀ fs cwd dd n idx, getDir fs cwd = some dd → find_file_index dd n = some idx →
      rm_cmd fs cwd n =
        ({ nodes := fs.nodes.set cwd
             ({ dd with files := dd.files.take idx ++ dd.files.drop (idx + 1) }) }, none)) := by
  have hcwdlt : s.cwd < s.fs.nodes.length := getDir_lt hd
  obtain ⟨f0, hf0⟩ :
      ∃ f0, ({ name := truncName f, size := 0, perm := "rw-", content := "" } : File) = f0 :=
    ⟨_, rfl⟩
  obtain ⟨d1, hd1⟩ : ∃ d1, ({ d with files := d.files ++ [f0] } : Dir) = d1 := ⟨_, rfl⟩
  obtain ⟨d2, hd2⟩ : ∃ d2, ({ d with files := ([] : List File) } : Dir) = d2 := ⟨_, rfl⟩
  have htouch : touch_cmd s.fs s.cwd f = ({ nodes := s.fs.nodes.set s.cwd d1 }, none) := by
    rw [← hd1, ← hf0]
    exact touch_fresh_success hd
      (by rw [find_file_index_eq_none_iff, hfiles]; intro x hx; cases hx)
      (by rw [hfiles]; decide)
      (by rw [find_subdir_index_eq_none_iff, hsubs]; intro x hx; cases hx)
  have hgd1 : getDir { nodes := s.fs.nodes.set s.cwd d1 } s.cwd = some d1 := by
    unfold getDir
    exact List.getElem?_set_self hcwdlt
  have hfind1 : find_file_index d1 f = some 0 := by
    rw [← hd1]
    unfold find_file_index
    have hpr : ({ d with files := d.files ++ [f0] } : Dir).files = d.files ++ [f0] := rfl
    rw [hpr, hfiles, ← hf0]
    simp [hshort]
  have hde : ({ d1 with files := d1.files.take 0 ++ d1.files.drop (0 + 1) } : Dir) = d2 := by
    rw [← hd1, ← hd2]
    simp [hfiles]
  have hrm1 : rm_cmd { nodes := s.fs.nodes.set s.cwd d1 } s.cwd f
      = ({ nodes := (s.fs.nodes.set s.cwd d1).set s.cwd d2 }, none) := by
    have h := rm_shifts_down hgd1 hfind1
    rw [hde] at h
    exact h
  have hgd2 : getDir { nodes := (s.fs.nodes.set s.cwd d1).set s.cwd d2 } s.cwd = some d2 := by
    unfold getDir
    exact List.getElem?_set_self (by rw [List.length_set]; exact hcwdlt)
  have hfind2 : find_file_index d2 f = none := by
    rw [← hd2]
    simp [find_file_index]
  have hrm2 := rm_notfound hgd2 hfind2
  refine ⟨?_, ?_, ?_⟩
  · simp only [runOuts, run, step, htouch, hrm1, hrm2]
  · simp only [run, step, htouch, hrm1]
    unfold ls_entries
    rw [hgd2, ← hd2]
    simp [hsubs]
  · intro fs cwd dd n idx hdd hfind
    exact rm_shifts_down hdd hfind

/-- Counterexample to C7 as stated: for the 32-character name
`aaaa…a`, `touch` stores only the first 31 characters, so the following
`rm` with the same full argument already fails with `NotFound` and the
listing still shows the orphaned entry. -/
theorem C7_truncation_counterexample :
    runOuts initSt [.touch (String.mk (List.replicate 32 'a')),
        .rm (String.mk (List.replicate 32 'a'))] = [none, some Err.NotFound] ∧
    ls_entries (run initSt [.touch (String.mk (List.replicate 32 'a')),
        .rm (String.mk (List.replicate 32 'a'))]).fs 0
      = [String.mk (List.replicate 31 'a')] := by
  exact ⟨by decide, by decide⟩

/-- Witness for C7 with the empty root directory and the name `f`. -/
theorem C7_touch_rm_empty_listing_witness :
    runOuts initSt [.touch "f", .rm "f", .rm "f"] = [none, none, some Err.NotFound] ∧
    ls_entries (run initSt [.touch "f", .rm "f"]).fs 0 = [] := by
  have h := C7_touch_rm_empty_listing initSt (create_dir "/" none) "f" rfl rfl rfl (by decide)
  exact ⟨h.1, h.2.1⟩

/-! ### Claim C10: truncated storage, untruncated collision checks -/

/-- Facts extracted from a successful `touch` (`L2.c` check order): all
three checks passed and the truncated-name file was appended. -/
theorem touch_success_elim {fs fs1 : FS} {cwd : Nat} {d : Dir} {n : String}
    (hd : getDir fs cwd = some d) (h : touch_cmd fs cwd n = (fs1, none)) :
    find_file_index d n = none ∧ d.files.length < MAX_FILES ∧
    find_subdir_index fs d n = none ∧
    fs1 =
      { nodes := fs.nodes.set cwd { d with files := d.files ++
          [{ name := truncName n, size := 0, perm := "rw-", content := "" }] } } := by
  unfold touch_cmd at h
  simp only [hd] at h
  split_ifs at h with h1 h2 h3
  · simp at h
  · simp at h
  · simp at h
  · exact ⟨Option.not_isSome_iff_eq_none.mp (by simpa using h1), Nat.lt_of_not_le h2,
      Option.not_isSome_iff_eq_none.mp (by simpa using h3), (congrArg Prod.fst h).symm⟩

/-- Facts extracted from a successful `mv`: the source entry exists and
only its name field was overwritten, with the truncated destination. -/
theorem mv_success_elim {fs fs1 : FS} {cwd : Nat} {d : Dir} {src dst : String} {idx : Nat}
    (hd : getDir fs cwd = some d) (hsrc : find_file_index d src = some idx)
    (h : mv_cmd fs cwd src dst = (fs1, none)) :
    find_file_index d dst = none ∧ find_subdir_index fs d dst = none ∧
    ∃ f, d.files[idx]? = some f ∧
      fs1 =
        { nodes := fs.nodes.set cwd
            { d with files := d.files.set idx { f with name := truncName dst } } } := by
  obtain ⟨f, hf, _⟩ := find_file_index_some hsrc
  unfold mv_cmd at h
  simp only [hd, hsrc, hf] at h
  split_ifs at h with h1 h2
  · simp at h
  · simp at h
  · exact ⟨Option.not_isSome_iff_eq_none.mp (by simpa using h1),
      Option.not_isSome_iff_eq_none.mp (by simpa using h2),
      f, hf, (congrArg Prod.fst h).symm⟩

/-- Claim C10: every name stored by `touch`, `mkdir` or `mv` is the
argument truncated to `NAME_LEN - 1 = 31` characters, while the
pre-insertion collision checks compare the full untruncated argument
against the stored names; consequently two distinct arguments longer
than 31 characters that agree on their first 31 characters are both
accepted by `touch` and are stored with identical names. -/
theorem C10_truncation (fs : FS) (cwd : Nat) (d : Dir) :
    (∀ n fs1, getDir fs cwd = some d → touch_cmd fs cwd n = (fs1, none) →
      ∃ d1, getDir fs1 cwd = some d1 ∧
        d1.files.map File.name = d.files.map File.name ++ [truncName n]) ∧
    (∀ n fs1, getDir fs cwd = some d → mkdir_cmd fs cwd n = (fs1, none) →
      ∃ dnew, getDir fs1 fs.nodes.length = some dnew ∧ dnew.name = truncName n) ∧
    (∀ src dst idx fs1, getDir fs cwd = some d → find_file_index d src = some idx →
      mv_cmd fs cwd src dst = (fs1, none) →
      ∃ d1, getDir fs1 cwd = some d1 ∧
        (d1.files.map File.name)[idx]? = some (truncName dst)) ∧
    (∀ a b, getDir fs cwd = some d → a ≠ b →
      31 < a.data.length → 31 < b.data.length → a.data.take 31 = b.data.take 31 →
      find_file_index d a = none → find_subdir_index fs d a = none →
      find_file_index d b = none → find_subdir_index fs d b = none →
      d.files.length + 1 < MAX_FILES →
      ∃ fs1 fs2 d2, touch_cmd fs cwd a = (fs1, none) ∧
        touch_cmd fs1 cwd b = (fs2, none) ∧
        getDir fs2 cwd = some d2 ∧
        d2.files.map File.name
          = d.files.map File.name ++ [truncName a, truncName a]) := by
  refine ⟨?_, ?_, ?_, ?_⟩
  · intro n fs1 hd h
    obtain ⟨_, _, _, hfs1⟩ := touch_success_elim hd h
    obtain ⟨d1, hd1⟩ :
        ∃ d1,
          ({ d with files := d.files ++
              [{ name := truncName n, size := 0, perm := "rw-", content := "" }] } : Dir) = d1 :=
      ⟨_, rfl⟩
    rw [hd1] at hfs1
    subst hfs1
    refine ⟨d1, ?_, ?_⟩
    · unfold getDir
      exact List.getElem?_set_self (getDir_lt hd)
    · rw [← hd1]
      simp
  · intro n fs1 hd h
    obtain ⟨_, _, _, hfs1⟩ := mkdir_success_elim hd h
    subst hfs1
    refine ⟨create_dir n (some cwd), ?_, rfl⟩
    unfold getDir
    exact getElem_concat_of_length (List.length_set fs.nodes _ _)
  · intro src dst idx fs1 hd hsrc h
    obtain ⟨_, _, f, hf, hfs1⟩ := mv_success_elim hd hsrc h
    obtain ⟨d1, hd1⟩ :
        ∃ d1,
          ({ d with files := d.files.set idx { f with name := truncName dst } } : Dir) = d1 :=
      ⟨_, rfl⟩
    rw [hd1] at hfs1
    subst hfs1
    have hidx : idx < d.files.length := by
      rcases List.getElem?_eq_some_iff.mp hf with ⟨hlt, _⟩
      exact hlt
    refine ⟨d1, ?_, ?_⟩
    · unfold getDir
      exact List.getElem?_set_self (getDir_lt hd)
    · rw [← hd1]
      have hpr : ({ d with files := d.files.set idx { f with name := truncName dst } } : Dir).files
          = d.files.set idx { f with name := truncName dst } := rfl
      rw [hpr, List.getElem?_map, List.getElem?_set_self (by simpa using hidx)]
      rfl
  · intro a b hd hab hla hlb hpre hfa hsa hfb hsb hcap
    have htr : truncName a = truncName b := congrArg String.mk hpre
    have hbta : b ≠ truncName a := by
      intro hh
      have hlen : b.data.length = (a.data.take 31).length :=
        congrArg (fun s => s.data.length) hh
      rw [List.length_take] at hlen
      omega
    obtain ⟨fa, hfa0⟩ :
        ∃ fa, ({ name := truncName a, size := 0, perm := "rw-", content := "" } : File) = fa :=
      ⟨_, rfl⟩
    obtain ⟨fb, hfb0⟩ :
        ∃ fb, ({ name := truncName b, size := 0, perm := "rw-", content := "" } : File) = fb :=
      ⟨_, rfl⟩
    obtain ⟨d1, hd1⟩ : ∃ d1, ({ d with files := d.files ++ [fa] } : Dir) = d1 := ⟨_, rfl⟩
    obtain ⟨d2, hd2⟩ : ∃ d2, ({ d1 with files := d1.files ++ [fb] } : Dir) = d2 := ⟨_, rfl⟩
    have ht1 : touch_cmd fs cwd a = ({ nodes := fs.nodes.set cwd d1 }, none) := by
      rw [← hd1, ← hfa0]
      exact touch_fresh_success hd hfa (by omega) hsa
    have hgd1 : getDir { nodes := fs.nodes.set cwd d1 } cwd = some d1 := by
      unfold getDir
      exact List.getElem?_set_self (getDir_lt hd)
    have hnames : ∀ c, childDirName { nodes := fs.nodes.set cwd d1 } c = childDirName fs c := by
      intro c
      rw [← hd1]
      exact childDirName_set { d with files := d.files ++ [fa] } hd rfl c
    have hfl1 : d1.files = d.files ++ [fa] := by rw [← hd1]
    have hfindb : find_file_index d1 b = none := by
      rw [find_file_index_eq_none_iff, hfl1]
      intro g hg
      rcases List.mem_append.mp hg with hg | hg
      · exact find_file_index_eq_none_iff.mp hfb g hg
      · rcases List.mem_singleton.mp hg with rfl
        rw [← hfa0]
        exact fun hh => hbta hh.symm
    have hcapb : d1.files.length < MAX_FILES := by
      rw [hfl1]
      rw [List.length_append]
      simp only [List.length_singleton]
      omega
    have hsubb : find_subdir_index { nodes := fs.nodes.set cwd d1 } d1 b = none := by
      rw [find_subdir_index_congr fun c hc => hnames c]
      rw [← hd1]
      exact hsb
    have ht2 : touch_cmd { nodes := fs.nodes.set cwd d1 } cwd b
        = ({ nodes := (fs.nodes.set cwd d1).set cwd d2 }, none) := by
      rw [← hd2, ← hfb0]
      exact touch_fresh_success hgd1 hfindb hcapb hsubb
    refine ⟨_, _, d2, ht1, ht2, ?_, ?_⟩
    · unfold getDir
      exact List.getElem?_set_self (by rw [List.length_set]; exact getDir_lt hd)
    · rw [← hd2, hfl1, ← hfa0, ← hfb0]
      simp [← htr]

/-- Witness for C10: concrete instances of all four parts — `touch x`,
`mkdir s` and `mv old new` store the (here unchanged) truncated names,
and the 32-character names `a…a` and `a…ab` are both accepted and stored
as the same 31-character name. -/
theorem C10_truncation_witness :
    (∃ d1, getDir (touch_cmd initSt.fs 0 "x").1 0 = some d1 ∧
      d1.files.map File.name
        = (create_dir "/" none).files.map File.name ++ [truncName "x"]) ∧
    (∃ dnew, getDir (mkdir_cmd initSt.fs 0 "s").1 initSt.fs.nodes.length = some dnew ∧
      dnew.name = truncName "s") ∧
    (∃ d1, getDir (mv_cmd (run initSt [.touch "old"]).fs 0 "old" "new").1 0 = some d1 ∧
      (d1.files.map File.name)[0]? = some (truncName "new")) ∧
    (∃ fs1 fs2 d2,
      touch_cmd initSt.fs 0 (String.mk (List.replicate 32 'a')) = (fs1, none) ∧
      touch_cmd fs1 0 (String.mk (List.replicate 31 'a' ++ ['b'])) = (fs2, none) ∧
      getDir fs2 0 = some d2 ∧
      d2.files.map File.name
        = (create_dir "/" none).files.map File.name
          ++ [truncName (String.mk (List.replicate 32 'a')),
            truncName (String.mk (List.replicate 32 'a'))]) := by
  obtain ⟨h1, h2, _, h4⟩ := C10_truncation initSt.fs 0 (create_dir "/" none)
  obtain ⟨_, _, hm3, _⟩ := C10_truncation (run initSt [.touch "old"]).fs 0
    { name := "/", parent := none,
      files := [{ name := "old", size := 0, perm := "rw-", content := "" }], subdirs := [] }
  refine ⟨h1 "x" _ rfl (by decide), h2 "s" _ rfl (by decide), ?_, ?_⟩
  · exact hm3 "old" "new" 0 _ (by decide) (by decide) (by decide)
  · exact h4 (String.mk (List.replicate 32 'a')) (String.mk (List.replicate 31 'a' ++ ['b']))
      rfl (by decide) (by decide) (by decide) (by decide) (by decide) (by decide)
      (by decide) (by decide) (by decide)

/-! ### Claim C3: file-capacity behaviour of `touch` -/

/-- Running a concatenated command list runs the two pieces in order. -/
theorem run_append : ∀ (l1 : List Cmd) (s : St) (l2 : List Cmd),
    run s (l1 ++ l2) = run (run s l1) l2
  | [], _, _ => rfl
  | c :: cs, s, l2 => by
    simp only [List.cons_append, run]
    exact run_append cs _ l2

/-- Outcomes of a concatenated command list are the concatenated
outcomes. -/
theorem runOuts_append : ∀ (l1 : List Cmd) (s : St) (l2 : List Cmd),
    runOuts s (l1 ++ l2) = runOuts s l1 ++ runOuts (run s l1) l2
  | [], _, _ => rfl
  | c :: cs, s, l2 => by
    simp only [List.cons_append, runOuts, run]
    exact congrArg (List.cons (step s c).2) (runOuts_append cs (step s c).1 l2)

/-- Shape of `touch` at a full directory: the collision check passes,
the capacity check fires, and the filesystem is returned untouched. -/
theorem touch_capacity {fs : FS} {cwd : Nat} {d : Dir} {n : String}
    (hd : getDir fs cwd = some d)
    (hfile : find_file_index d n = none)
    (hcap : MAX_FILES ≤ d.files.length) :
    touch_cmd fs cwd n = (fs, some Err.CapacityExceeded) := by
  unfold touch_cmd
  simp only [hd, hfile, Option.isSome_none, Bool.false_eq_true, if_false]
  rw [if_pos hcap]

/-- Sequentially touching a list of names that fit in the remaining
capacity, are fresh for the directory and contain no name equal to the
truncation of an earlier one: every call succeeds, the current directory
handle does not move, and the file collection grows by exactly the
truncated names in order (subdirectories untouched). -/
theorem touch_seq : ∀ (names : List String) (fs : FS) (cwd : Nat) (d : Dir),
    getDir fs cwd = some d →
    d.files.length + names.length ≤ MAX_FILES →
    (∀ n ∈ names, (∀ g ∈ d.files, g.name ≠ n) ∧ find_subdir_index fs d n = none) →
    names.Pairwise (fun x y => y ≠ truncName x) →
    runOuts ⟨fs, cwd⟩ (names.map Cmd.touch) = names.map (fun _ => none) ∧
    (run ⟨fs, cwd⟩ (names.map Cmd.touch)).cwd = cwd ∧
    ∃ d', getDir (run ⟨fs, cwd⟩ (names.map Cmd.touch)).fs cwd = some d' ∧
      d'.files.map File.name = d.files.map File.name ++ names.map truncName ∧
      d'.subdirs = d.subdirs
  | [], fs, cwd, d, hd, _, _, _ => ⟨rfl, rfl, d, hd, by simp, rfl⟩
  | n :: ns, fs, cwd, d, hd, hcap, hfresh, hpair => by
    have hfile : find_file_index d n = none := by
      rw [find_file_index_eq_none_iff]
      exact (hfresh n (List.mem_cons_self n ns)).1
    have hsub : find_subdir_index fs d n = none := (hfresh n (List.mem_cons_self n ns)).2
    have hcapn : d.files.length < MAX_FILES := by
      simp only [List.length_cons] at hcap
      omega
    obtain ⟨f0, hf0⟩ :
        ∃ f0, ({ name := truncName n, size := 0, perm := "rw-", content := "" } : File) = f0 :=
      ⟨_, rfl⟩
    obtain ⟨d1, hd1⟩ : ∃ d1, ({ d with files := d.files ++ [f0] } : Dir) = d1 := ⟨_, rfl⟩
    have ht : touch_cmd fs cwd n = ({ nodes := fs.nodes.set cwd d1 }, none) := by
      rw [← hd1, ← hf0]
      exact touch_fresh_success hd hfile hcapn hsub
    have hgd1 : getDir { nodes := fs.nodes.set cwd d1 } cwd = some d1 := by
      unfold getDir
      exact List.getElem?_set_self (getDir_lt hd)
    have hfl1 : d1.files = d.files ++ [f0] := by rw [← hd1]
    have hsd1 : d1.subdirs = d.subdirs := by rw [← hd1]
    have hnm : f0.name = truncName n := by rw [← hf0]
    have hhd := (List.pairwise_cons.mp hpair).1
    have hpair' := (List.pairwise_cons.mp hpair).2
    have ih := touch_seq ns { nodes := fs.nodes.set cwd d1 } cwd d1 hgd1
      (by
        have h1 : d1.files.length = d.files.length + 1 := by rw [hfl1]; simp
        simp only [List.length_cons] at hcap
        omega)
      (by
        intro m hm
        constructor
        · intro g hg
          rw [hfl1] at hg
          rcases List.mem_append.mp hg with hg | hg
          · exact (hfresh m (List.mem_cons_of_mem n hm)).1 g hg
          · rcases List.mem_singleton.mp hg with rfl
            rw [hnm]
            exact fun hh => (hhd m hm) hh.symm
        · have hcongr : find_subdir_index { nodes := fs.nodes.set cwd d1 } d1 m
              = find_subdir_index fs d1 m :=
            find_subdir_index_congr fun c _ => childDirName_set d1 hd (by rw [← hd1]) c
          rw [hcongr]
          have hsame : find_subdir_index fs d1 m = find_subdir_index fs d m := by
            unfold find_subdir_index
            rw [hsd1]
          rw [hsame]
          exact (hfresh m (List.mem_cons_of_mem n hm)).2)
      hpair'
    obtain ⟨ihouts, ihcwd, d', ihgd, ihnames, ihsubs⟩ := ih
    refine ⟨?_, ?_, d', ?_, ?_, ?_⟩
    · simp only [List.map_cons, runOuts, step, ht]
      exact congrArg (List.cons none) ihouts
    · simp only [List.map_cons, run, step, ht]
      exact ihcwd
    · simp only [List.map_cons, run, step, ht]
      exact ihgd
    · rw [ihnames, hfl1, List.map_append, List.map_cons]
      simp [hnm]
    · rw [ihsubs, hsd1]

/-- Claim C3 (amended): issuing `touch` for `MAX_FILES + 1 = 17` fresh
names — fresh for the directory, and no name equal to the 31-character
truncation of an earlier one — in a directory with no files makes the
first `MAX_FILES = 16` calls succeed, makes the 17th call fail with
`CapacityExceeded`, and the failed call leaves the whole session state
(in particular the file collection, its count and contents) exactly as
after the 16th call. -/
theorem C3_capacity (s : St) (d : Dir) (names : List String)
    (hd : getDir s.fs s.cwd = some d)
    (hfiles : d.files = [])
    (hlen : names.length = MAX_FILES + 1)
    (hfresh : ∀ n ∈ names, find_subdir_index s.fs d n = none)
    (hpair : names.Pairwise (fun x y => y ≠ truncName x)) :
    runOuts s (names.map Cmd.touch)
      = List.replicate MAX_FILES none ++ [some Err.CapacityExceeded] ∧
    (∃ d', getDir (run s (names.map Cmd.touch)).fs s.cwd = some d' ∧
      d'.files.length = MAX_FILES) ∧
    run s (names.map Cmd.touch) = run s ((names.take MAX_FILES).map Cmd.touch) := by
  obtain ⟨n17, h17⟩ : ∃ n17, names.drop MAX_FILES = [n17] := by
    have hl : (names.drop MAX_FILES).length = 1 := by
      rw [List.length_drop, hlen]
      omega
    cases hdrop : names.drop MAX_FILES with
    | nil => rw [hdrop] at hl; cases hl
    | cons a t =>
      rw [hdrop] at hl
      cases t with
      | nil => exact ⟨a, rfl⟩
      | cons b u => simp at hl
  have hsplit : names = names.take MAX_FILES ++ [n17] := by
    rw [← h17, List.take_append_drop]
  have hlen16 : (names.take MAX_FILES).length = MAX_FILES := by
    rw [List.length_take, hlen]
    omega
  have hseq := touch_seq (names.take MAX_FILES) s.fs s.cwd d hd
    (by rw [hfiles, hlen16]; decide)
    (by
      intro m hm
      exact ⟨(by rw [hfiles]; intro g hg; cases hg),
        hfresh m (List.mem_of_mem_take hm)⟩)
    (hpair.sublist (List.take_sublist _ _))
  obtain ⟨houts, hcwd16, d16, hgd16, hnames16, _⟩ := hseq
  have hcnt16 : d16.files.length = MAX_FILES := by
    have hh := congrArg List.length hnames16
    rw [List.length_map, List.length_append, List.length_map, List.length_map,
      hfiles, hlen16] at hh
    simpa using hh
  have hmem17 : ∀ g ∈ d16.files, g.name ≠ n17 := by
    intro g hg hgn
    have hmm : g.name ∈ d16.files.map File.name := List.mem_map_of_mem File.name hg
    rw [hnames16, hfiles] at hmm
    simp only [List.map_nil, List.nil_append] at hmm
    obtain ⟨x, hx, hxe⟩ := List.mem_map.mp hmm
    have hp : ∀ y ∈ [n17], y ≠ truncName x := by
      have := (List.pairwise_append.mp (hsplit ▸ hpair)).2.2
      exact fun y hy => this x hx y hy
    exact hp n17 (List.mem_singleton_self n17) (by rw [← hgn, hxe])
  have hfile17 : find_file_index d16 n17 = none := by
    rw [find_file_index_eq_none_iff]
    exact hmem17
  have ht17 : touch_cmd (run s ((names.take MAX_FILES).map Cmd.touch)).fs
      (run s ((names.take MAX_FILES).map Cmd.touch)).cwd n17
      = ((run s ((names.take MAX_FILES).map Cmd.touch)).fs, some Err.CapacityExceeded) := by
    apply touch_capacity _ hfile17
    · rw [hcnt16]
    · rw [hcwd16]
      exact hgd16
  have hrun : run s (names.map Cmd.touch) = run s ((names.take MAX_FILES).map Cmd.touch) := by
    conv_lhs => rw [hsplit]
    rw [List.map_append, run_append]
    simp only [List.map_cons, List.map_nil, run, step, ht17]
  refine ⟨?_, ⟨d16, ?_, hcnt16⟩, hrun⟩
  · conv_lhs => rw [hsplit]
    rw [List.map_append, runOuts_append, houts]
    simp only [List.map_cons, List.map_nil, runOuts, step, ht17]
    rw [List.map_const', hlen16]
  · rw [hrun]
    exact hgd16

/-- Counterexample to C3 as stated: seventeen pairwise-distinct names,
all fresh in the empty root, where the second name happens to be the
31-character truncation of the first (32-character) name — the second
`touch`, well within capacity, already fails with `NameCollision`
instead of succeeding, because the first name was stored truncated. -/
theorem C3_truncation_counterexample :
    List.Pairwise (fun x y => x ≠ y)
      [String.mk (List.replicate 32 'a'), String.mk (List.replicate 31 'a'),
        "c", "d", "e", "f", "g", "h", "i", "j", "k", "l", "m", "o", "p", "q", "r"] ∧
    (runOuts initSt (([String.mk (List.replicate 32 'a'), String.mk (List.replicate 31 'a'),
        "c", "d", "e", "f", "g", "h", "i", "j", "k", "l", "m", "o", "p", "q", "r"]).map
        Cmd.touch))[1]? = some (some Err.NameCollision) := by
  exact ⟨by decide, by decide⟩

/-- Witness for C3: seventeen distinct one-character names at the empty
root — sixteen successes, then `CapacityExceeded`, state unchanged. -/
theorem C3_capacity_witness :
    runOuts initSt ((["a", "b", "c", "d", "e", "f", "g", "h", "i", "j", "k", "l", "m",
        "n", "o", "p", "q"]).map Cmd.touch)
      = List.replicate MAX_FILES none ++ [some Err.CapacityExceeded] ∧
    (∃ d', getDir (run initSt ((["a", "b", "c", "d", "e", "f", "g", "h", "i", "j", "k",
        "l", "m", "n", "o", "p", "q"]).map Cmd.touch)).fs initSt.cwd = some d' ∧
      d'.files.length = MAX_FILES) ∧
    run initSt ((["a", "b", "c", "d", "e", "f", "g", "h", "i", "j", "k", "l", "m",
        "n", "o", "p", "q"]).map Cmd.touch)
      = run initSt (((["a", "b", "c", "d", "e", "f", "g", "h", "i", "j", "k", "l", "m",
        "n", "o", "p", "q"]).take MAX_FILES).map Cmd.touch) := by
  exact C3_capacity initSt (create_dir "/" none)
    ["a", "b", "c", "d", "e", "f", "g", "h", "i", "j", "k", "l", "m", "n", "o", "p", "q"]
    rfl rfl (by decide) (by decide) (by decide)

/-! ### Claim C8: depth bound of the `pwd` ancestor walk -/

/-- The fuelled ancestor walk never produces more entries than its fuel,
so the `L2.c` walk (fuel `MAX_DEPTH = 64`) never writes past the
64-entry `parts` array. -/
theorem pwdPartsAux_length_le : ∀ (fs : FS) (fuel : Nat) (p : Option Nat),
    (pwdPartsAux fs fuel p).length ≤ fuel
  | fs, 0, p => by cases p <;> simp [pwdPartsAux]
  | _, _ + 1, none => by simp [pwdPartsAux]
  | fs, fuel + 1, some i => by
    unfold pwdPartsAux
    cases h : getDir fs i with
    | none => simp
    | some d =>
      simp only [List.length_cons, Nat.succ_le_succ_iff]
      exact pwdPartsAux_length_le fs fuel d.parent

/-- Claim C8 (code bug in `linux-commands.c`): the `L2.c` ancestor walk
is bounded — it visits at most `MAX_DEPTH = 64` nodes and truncates a
longer chain — but the identical loop of `linux-commands.c` has no depth
bound over its 64-entry `parts` array.  At the reachable state 64
`mkdir d; cd d` pairs deep, the chain from the current directory to the
root holds 65 nodes: the bounded walk stops after 64 entries, while the
unbounded walk (the fuelled walk's stable value, unchanged from fuel 65
to fuel 200) visits 65 nodes, i.e. the `linux-commands.c` loop performs
the out-of-bounds write `parts[64]`. -/
theorem C8_pwd_depth_bound :
    (∀ fs fuel i, (pwdParts fs fuel i).length ≤ fuel) ∧
    (pwdParts (run initSt ((List.replicate 64 [Cmd.mkdir "d", Cmd.cd "d"]).flatten)).fs
        MAX_DEPTH
        (run initSt ((List.replicate 64 [Cmd.mkdir "d", Cmd.cd "d"]).flatten)).cwd).length
      = 64 ∧
    (pwdParts (run initSt ((List.replicate 64 [Cmd.mkdir "d", Cmd.cd "d"]).flatten)).fs 65
        (run initSt ((List.replicate 64 [Cmd.mkdir "d", Cmd.cd "d"]).flatten)).cwd).length
      = 65 ∧
    pwdParts (run initSt ((List.replicate 64 [Cmd.mkdir "d", Cmd.cd "d"]).flatten)).fs 65
        (run initSt ((List.replicate 64 [Cmd.mkdir "d", Cmd.cd "d"]).flatten)).cwd
      = pwdParts (run initSt ((List.replicate 64 [Cmd.mkdir "d", Cmd.cd "d"]).flatten)).fs 200
        (run initSt ((List.replicate 64 [Cmd.mkdir "d", Cmd.cd "d"]).flatten)).cwd := by
  exact ⟨fun fs fuel i => pwdPartsAux_length_le fs fuel (some i),
    by decide, by decide, by decide⟩

/-! ### Claim C9: post-order release order of `free_dir` -/

/-- Claim C9: `free_dir` releases subtrees in post-order.  The trace of
a node is the concatenation of its subdirectories' traces followed by
the node itself; a leaf's trace is just the node itself (a single
release); the node is always the last release of its own trace; and,
when the arena's child pointers are valid, every descendant reached
through the subdirectory pointers is released strictly before the node
itself. -/
theorem C9_free_postorder (fs : FS) :
    (∀ fuel i d, getDir fs i = some d →
      freeTrace fs (fuel + 1) i
        = (d.subdirs.map fun c => freeTrace fs fuel c).flatten ++ [i]) ∧
    (∀ fuel i d, getDir fs i = some d → d.subdirs = [] →
      freeTrace fs (fuel + 1) i = [i]) ∧
    (∀ fuel i d, getDir fs i = some d →
      (freeTrace fs (fuel + 1) i).getLast? = some i) ∧
    ((∀ d ∈ fs.nodes, ∀ c ∈ d.subdirs, c < fs.nodes.length) →
      ∀ fuel i j, j ∈ descendants fs fuel i →
        j ∈ (freeTrace fs (fuel + 1) i).dropLast) := by
  have hshape : ∀ fuel i d, getDir fs i = some d →
      freeTrace fs (fuel + 1) i
        = (d.subdirs.map fun c => freeTrace fs fuel c).flatten ++ [i] := by
    intro fuel i d h
    conv_lhs => rw [freeTrace]
    rw [h]
  refine ⟨hshape, ?_, ?_, ?_⟩
  · intro fuel i d h hleaf
    rw [hshape fuel i d h, hleaf]
    simp
  · intro fuel i d h
    rw [hshape fuel i d h]
    exact List.getLast?_concat _
  · intro hval
    intro fuel
    induction fuel with
    | zero => intro i j hj; cases hj
    | succ fuel ih =>
      intro i j hj
      unfold descendants at hj
      cases hgd : getDir fs i with
      | none => rw [hgd] at hj; cases hj
      | some d =>
        rw [hgd] at hj
        have hmem : d ∈ fs.nodes := by
          rcases List.getElem?_eq_some_iff.mp hgd with ⟨hlt, he⟩
          rw [← he]
          exact List.getElem_mem hlt
        rw [hshape (fuel + 1) i d hgd, List.dropLast_concat]
        rcases List.mem_append.mp hj with hj | hj
        · have hjlt : j < fs.nodes.length := hval d hmem j hj
          obtain ⟨dj, hdj⟩ : ∃ dj, getDir fs j = some dj :=
            ⟨fs.nodes[j], by unfold getDir; exact List.getElem?_eq_getElem hjlt⟩
          refine List.mem_flatten.mpr ⟨freeTrace fs (fuel + 1) j, ?_, ?_⟩
          · exact List.mem_map_of_mem _ hj
          · rw [hshape fuel j dj hdj]
            exact List.mem_append.mpr (Or.inr (List.mem_singleton_self j))
        · obtain ⟨c, hc, hjc⟩ : ∃ c ∈ d.subdirs, j ∈ descendants fs fuel c := by
            obtain ⟨l, hl, hjl⟩ := List.mem_flatten.mp hj
            obtain ⟨c, hc, rfl⟩ := List.mem_map.mp hl
            exact ⟨c, hc, hjl⟩
          have hrec := ih c j hjc
          have : j ∈ freeTrace fs (fuel + 1) c :=
            (List.dropLast_sublist _).mem hrec
          refine List.mem_flatten.mpr ⟨freeTrace fs (fuel + 1) c, ?_, this⟩
          exact List.mem_map_of_mem _ hc

/-- Witness for C9 in the tree `/{a/{c}, b}` (arena ids: root 0, a 1,
b 2, c 3; the free trace of the root is `[3, 1, 2, 0]`): the leaf `c`
frees exactly itself, the root is freed last, and the descendants `1`
and `3` are freed strictly before the root. -/
theorem C9_free_postorder_witness :
    freeTrace (run initSt [.mkdir "a", .mkdir "b", .cd "a", .mkdir "c"]).fs 10 3 = [3] ∧
    (freeTrace (run initSt [.mkdir "a", .mkdir "b", .cd "a", .mkdir "c"]).fs 10 0).getLast?
      = some 0 ∧
    1 ∈ (freeTrace (run initSt [.mkdir "a", .mkdir "b", .cd "a", .mkdir "c"]).fs
      10 0).dropLast ∧
    3 ∈ (freeTrace (run initSt [.mkdir "a", .mkdir "b", .cd "a", .mkdir "c"]).fs
      10 0).dropLast := by
  obtain ⟨h1, h2, h3, h4⟩ :=
    C9_free_postorder (run initSt [.mkdir "a", .mkdir "b", .cd "a", .mkdir "c"]).fs
  refine ⟨?_, ?_, ?_, ?_⟩
  · exact h2 9 3 { name := "c", parent := some 1, files := [], subdirs := [] }
      (by decide) rfl
  · exact h3 9 0 { name := "/", parent := none, files := [], subdirs := [1, 2] } (by decide)
  · exact h4 (by decide) 9 0 1 (by decide)
  · exact h4 (by decide) 9 0 3 (by decide)

/-! ### Claim C2: no two direct children of a directory share a name -/

/-- Commands whose stored name argument is unaffected by truncation
(`rm` and `cd` store no name at all). -/
def shortCmd : Cmd → Prop
  | .touch n => truncName n = n
  | .mkdir n => truncName n = n
  | .mv _ b => truncName b = b
  | .rm _ => True
  | .cd _ => True

/-- All stored subdirectory pointers are in range. -/
def validIds (fs : FS) : Prop :=
  ∀ d ∈ fs.nodes, ∀ c ∈ d.subdirs, c < fs.nodes.length

/-- All stored parent pointers are in range. -/
def parentsOk (fs : FS) : Prop :=
  ∀ d ∈ fs.nodes, ∀ p, d.parent = some p → p < fs.nodes.length

/-- The claimed invariant: within each directory node the combined child
names — file names and subdirectory names together — are pairwise
distinct. -/
def namesOk (fs : FS) : Prop :=
  ∀ d ∈ fs.nodes, (d.files.map File.name ++ d.subdirs.map (childDirName fs)).Nodup

/-- Well-formedness of the whole arena. -/
def FsOk (fs : FS) : Prop := validIds fs ∧ parentsOk fs ∧ namesOk fs

/-- Session invariant: current directory pointer valid, arena well
formed. -/
def Inv (s : St) : Prop := s.cwd < s.fs.nodes.length ∧ FsOk s.fs

/-- A dereferenced node is a member of the arena. -/
theorem mem_of_getDir {fs : FS} {i : Nat} {d : Dir} (h : getDir fs i = some d) :
    d ∈ fs.nodes := by
  rcases List.getElem?_eq_some_iff.mp h with ⟨hlt, he⟩
  rw [← he]
  exact List.getElem_mem hlt

/-- Appending one fresh element keeps a list duplicate-free. -/
theorem nodup_concat {α : Type _} {L : List α} {x : α} (h : L.Nodup) (hx : x ∉ L) :
    (L ++ [x]).Nodup := by
  rw [show L ++ [x] = L ++ x :: [] from rfl, List.nodup_middle]
  exact List.nodup_cons.mpr ⟨by simpa using hx, by simpa using h⟩

/-- Appending one fresh element in the middle of a duplicate-free
concatenation keeps it duplicate-free. -/
theorem nodup_append_singleton_append {α : Type _} {A B : List α} {x : α}
    (h : (A ++ B).Nodup) (hxA : x ∉ A) (hxB : x ∉ B) :
    ((A ++ [x]) ++ B).Nodup := by
  rw [show (A ++ [x]) ++ B = A ++ x :: B by simp, List.nodup_middle]
  exact List.nodup_cons.mpr ⟨fun hx => (List.mem_append.mp hx).elim hxA hxB, h⟩

/-- Overwriting one position with a fresh element keeps a duplicate-free
concatenation duplicate-free. -/
theorem nodup_set_append {α : Type _} {A B : List α} {x : α} {i : Nat}
    (h : (A ++ B).Nodup) (hxA : x ∉ A) (hxB : x ∉ B) :
    ((A.set i x) ++ B).Nodup := by
  by_cases hi : i < A.length
  · rw [List.set_eq_take_cons_drop x hi,
      show (A.take i ++ x :: A.drop (i + 1)) ++ B = A.take i ++ x :: (A.drop (i + 1) ++ B)
        by simp, List.nodup_middle]
    refine List.nodup_cons.mpr ⟨?_, ?_⟩
    · intro hx
      rcases List.mem_append.mp hx with hx | hx
      · exact hxA (List.mem_of_mem_take hx)
      · rcases List.mem_append.mp hx with hx | hx
        · exact hxA (List.mem_of_mem_drop hx)
        · exact hxB hx
    · have h1 : List.Sublist (A.take i ++ A.drop (i + 1)) A := by
        have h2 := List.eraseIdx_sublist A i
        rwa [List.eraseIdx_eq_take_drop_succ] at h2
      have h3 := h1.append_right B
      rw [List.append_assoc] at h3
      exact h.sublist h3
  · rw [List.set_eq_of_length_le (Nat.le_of_not_lt hi)]
    exact h

/-- Names are preserved by a same-name in-place node update followed by
an arena extension. -/
theorem childDirName_set_append (d' : Dir) (extra : List Dir) {fs : FS} {cwd : Nat} {d : Dir}
    (hd : getDir fs cwd = some d) (hname : d'.name = d.name) {c : Nat}
    (hc : c < fs.nodes.length) :
    childDirName { nodes := fs.nodes.set cwd d' ++ extra } c = childDirName fs c :=
  (childDirName_append (fs.nodes.set cwd d') extra c
    (by rw [List.length_set]; exact hc)).trans (childDirName_set d' hd hname c)

/-- A failing `touch` returns the filesystem unchanged. -/
theorem touch_err_unchanged {fs fs1 : FS} {cwd : Nat} {n : String} {e : Err}
    (h : touch_cmd fs cwd n = (fs1, some e)) : fs1 = fs := by
  unfold touch_cmd at h
  cases hgd : getDir fs cwd with
  | none =>
    simp only [hgd] at h
    exact (congrArg Prod.fst h).symm
  | some d =>
    simp only [hgd] at h
    split_ifs at h with h1 h2 h3
    · exact (congrArg Prod.fst h).symm
    · exact (congrArg Prod.fst h).symm
    · exact (congrArg Prod.fst h).symm
    · simp at h

/-- A failing `mkdir` returns the filesystem unchanged. -/
theorem mkdir_err_unchanged {fs fs1 : FS} {cwd : Nat} {n : String} {e : Err}
    (h : mkdir_cmd fs cwd n = (fs1, some e)) : fs1 = fs := by
  unfold mkdir_cmd at h
  cases hgd : getDir fs cwd with
  | none =>
    simp only [hgd] at h
    exact (congrArg Prod.fst h).symm
  | some d =>
    simp only [hgd] at h
    split_ifs at h with h1 h2
    · exact (congrArg Prod.fst h).symm
    · exact (congrArg Prod.fst h).symm
    · simp at h

/-- A failing `rm` returns the filesystem unchanged. -/
theorem rm_err_unchanged {fs fs1 : FS} {cwd : Nat} {n : String} {e : Err}
    (h : rm_cmd fs cwd n = (fs1, some e)) : fs1 = fs := by
  unfold rm_cmd at h
  cases hgd : getDir fs cwd with
  | none =>
    simp only [hgd] at h
    exact (congrArg Prod.fst h).symm
  | some d =>
    simp only [hgd] at h
    cases hf : find_file_index d n with
    | none =>
      simp only [hf] at h
      exact (congrArg Prod.fst h).symm
    | some idx =>
      simp only [hf] at h
      simp at h

/-- A failing `mv` returns the filesystem unchanged. -/
theorem mv_err_unchanged {fs fs1 : FS} {cwd : Nat} {src dst : String} {e : Err}
    (h : mv_cmd fs cwd src dst = (fs1, some e)) : fs1 = fs := by
  unfold mv_cmd at h
  cases hgd : getDir fs cwd with
  | none =>
    simp only [hgd] at h
    exact (congrArg Prod.fst h).symm
  | some d =>
    simp only [hgd] at h
    cases hf : find_file_index d src with
    | none =>
      simp only [hf] at h
      exact (congrArg Prod.fst h).symm
    | some idx =>
      simp only [hf] at h
      split_ifs at h with h1 h2
      · exact (congrArg Prod.fst h).symm
      · exact (congrArg Prod.fst h).symm
      · cases hg : d.files[idx]? with
        | none =>
          simp only [hg] at h
          exact (congrArg Prod.fst h).symm
        | some f =>
          simp only [hg] at h
          simp at h

/-- Facts extracted from a successful `rm`. -/
theorem rm_success_elim {fs fs1 : FS} {cwd : Nat} {d : Dir} {n : String}
    (hd : getDir fs cwd = some d) (h : rm_cmd fs cwd n = (fs1, none)) :
    ∃ idx, find_file_index d n = some idx ∧
      fs1 = { nodes := fs.nodes.set cwd ({ d with files := d.files.eraseIdx idx }) } := by
  unfold rm_cmd at h
  simp only [hd] at h
  cases hf : find_file_index d n with
  | none =>
    simp only [hf] at h
    simp at h
  | some idx =>
    simp only [hf] at h
    exact ⟨idx, rfl, (congrArg Prod.fst h).symm⟩

/-- Any result of `cd` is the root handle, the current directory itself,
the parent of the current directory, or one of its direct children. -/
theorem cd_result_cases (fs : FS) (cwd : Nat) (arg : String) (root : Nat) :
    (cd_cmd fs cwd arg root).1 = root ∨ (cd_cmd fs cwd arg root).1 = cwd ∨
    (∃ d p, getDir fs cwd = some d ∧ d.parent = some p ∧ (cd_cmd fs cwd arg root).1 = p) ∨
    (∃ d c, getDir fs cwd = some d ∧ c ∈ d.subdirs ∧ (cd_cmd fs cwd arg root).1 = c) := by
  by_cases h1 : (arg == "/") = true
  · left
    unfold cd_cmd
    rw [if_pos h1]
  · by_cases h2 : (arg == "..") = true
    · cases hgd : getDir fs cwd with
      | none =>
        have hres : cd_cmd fs cwd arg root = (cwd, none) := by
          unfold cd_cmd
          rw [if_neg h1, if_pos h2]
          simp only [hgd]
        right; left
        rw [hres]
      | some d =>
        cases hp : d.parent with
        | none =>
          have hres : cd_cmd fs cwd arg root = (cwd, none) := by
            unfold cd_cmd
            rw [if_neg h1, if_pos h2]
            simp only [hgd, hp]
          right; left
          rw [hres]
        | some p =>
          have hres : cd_cmd fs cwd arg root = (p, none) := by
            unfold cd_cmd
            rw [if_neg h1, if_pos h2]
            simp only [hgd, hp]
          right; right; left
          exact ⟨d, p, rfl, hp, by rw [hres]⟩
    · by_cases h3 : (arg == ".") = true
      · right; left
        unfold cd_cmd
        rw [if_neg h1, if_neg h2, if_pos h3]
      · cases hgd : getDir fs cwd with
        | none =>
          have hres : cd_cmd fs cwd arg root = (cwd, some Err.NotFound) := by
            unfold cd_cmd
            rw [if_neg h1, if_neg h2, if_neg h3]
            simp only [hgd]
          right; left
          rw [hres]
        | some d =>
          cases hf : find_subdir_index fs d arg with
          | none =>
            have hres : cd_cmd fs cwd arg root = (cwd, some Err.NotFound) := by
              unfold cd_cmd
              rw [if_neg h1, if_neg h2, if_neg h3]
              simp only [hgd, hf]
            right; left
            rw [hres]
          | some idx =>
            have hlt : idx < d.subdirs.length :=
              (List.findIdx?_eq_some_iff_findIdx_eq.mp hf).1
            have hres : cd_cmd fs cwd arg root = (d.subdirs.getD idx cwd, none) := by
              unfold cd_cmd
              rw [if_neg h1, if_neg h2, if_neg h3]
              simp only [hgd, hf]
            right; right; right
            refine ⟨d, d.subdirs[idx], rfl, List.getElem_mem hlt, ?_⟩
            rw [hres]
            simp [List.getD_eq_getElem?_getD, List.getElem?_eq_getElem hlt]

/-- Replacing a node in place — same name, same subdirectories, same
parent, and a name-list transformation preserving distinctness — keeps
the arena well formed. -/
theorem FsOk_set (fs : FS) (cwd : Nat) (d d' : Dir)
    (hd : getDir fs cwd = some d)
    (hname : d'.name = d.name)
    (hsubs : d'.subdirs = d.subdirs)
    (hparent : d'.parent = d.parent)
    (hnodup : (d.files.map File.name ++ d.subdirs.map (childDirName fs)).Nodup →
      (d'.files.map File.name ++ d'.subdirs.map (childDirName fs)).Nodup)
    (hok : FsOk fs) :
    FsOk { nodes := fs.nodes.set cwd d' } := by
  obtain ⟨hval, hpar, hnames⟩ := hok
  have hmemd : d ∈ fs.nodes := mem_of_getDir hd
  have hcdn : ∀ c, childDirName { nodes := fs.nodes.set cwd d' } c = childDirName fs c :=
    childDirName_set d' hd hname
  refine ⟨?_, ?_, ?_⟩
  · intro dd hdd c hc
    rw [List.length_set]
    rcases List.mem_or_eq_of_mem_set hdd with hdd | rfl
    · exact hval dd hdd c hc
    · rw [hsubs] at hc
      exact hval d hmemd c hc
  · intro dd hdd p hp
    rw [List.length_set]
    rcases List.mem_or_eq_of_mem_set hdd with hdd | rfl
    · exact hpar dd hdd p hp
    · rw [hparent] at hp
      exact hpar d hmemd p hp
  · intro dd hdd
    rcases List.mem_or_eq_of_mem_set hdd with hdd | rfl
    · rw [List.map_congr_left fun c _ => hcdn c]
      exact hnames dd hdd
    · rw [List.map_congr_left fun c _ => hcdn c]
      exact hnodup (hnames d hmemd)

/-- A name missed by the file search is not among the stored file
names. -/
theorem not_mem_file_names {d : Dir} {n : String} (h : find_file_index d n = none) :
    n ∉ d.files.map File.name := by
  intro hm
  obtain ⟨g, hg, hge⟩ := List.mem_map.mp hm
  exact find_file_index_eq_none_iff.mp h g hg hge

/-- A name missed by the subdirectory search is not among the stored
subdirectory names. -/
theorem not_mem_subdir_names {fs : FS} {d : Dir} {n : String}
    (h : find_subdir_index fs d n = none) :
    n ∉ d.subdirs.map (childDirName fs) := by
  intro hm
  obtain ⟨c, hc, hce⟩ := List.mem_map.mp hm
  exact find_subdir_index_eq_none_iff.mp h c hc hce

/-- `touch` with a full file name and a name unaffected by truncation
never relates two children of one directory by name: it preserves arena
well-formedness and never shrinks the arena. -/
theorem touch_preserves_FsOk (fs : FS) (cwd : Nat) (n : String)
    (hshort : truncName n = n) (hok : FsOk fs) :
    FsOk (touch_cmd fs cwd n).1 ∧ fs.nodes.length ≤ (touch_cmd fs cwd n).1.nodes.length := by
  rcases h : touch_cmd fs cwd n with ⟨fs1, e⟩
  show FsOk fs1 ∧ fs.nodes.length ≤ fs1.nodes.length
  cases e with
  | some e =>
    rw [touch_err_unchanged h]
    exact ⟨hok, Nat.le_refl _⟩
  | none =>
    cases hgd : getDir fs cwd with
    | none =>
      exfalso
      unfold touch_cmd at h
      simp only [hgd] at h
      simp at h
    | some d =>
      obtain ⟨hfile, _, hsub, hfs1⟩ := touch_success_elim hgd h
      subst hfs1
      refine ⟨?_, by rw [List.length_set]⟩
      have hnA : n ∉ d.files.map File.name := not_mem_file_names hfile
      have hnB : n ∉ d.subdirs.map (childDirName fs) := not_mem_subdir_names hsub
      refine FsOk_set fs cwd d _ hgd rfl rfl rfl ?_ hok
      intro hnodup
      have hmap : ({ d with files := d.files ++
          [{ name := truncName n, size := 0, perm := "rw-", content := "" }] } : Dir).files.map
          File.name = d.files.map File.name ++ [n] := by
        simp [hshort]
      rw [hmap]
      exact nodup_append_singleton_append hnodup hnA hnB

/-- `rm` preserves arena well-formedness and the arena length. -/
theorem rm_preserves_FsOk (fs : FS) (cwd : Nat) (n : String) (hok : FsOk fs) :
    FsOk (rm_cmd fs cwd n).1 ∧ fs.nodes.length ≤ (rm_cmd fs cwd n).1.nodes.length := by
  rcases h : rm_cmd fs cwd n with ⟨fs1, e⟩
  show FsOk fs1 ∧ fs.nodes.length ≤ fs1.nodes.length
  cases e with
  | some e =>
    rw [rm_err_unchanged h]
    exact ⟨hok, Nat.le_refl _⟩
  | none =>
    cases hgd : getDir fs cwd with
    | none =>
      exfalso
      unfold rm_cmd at h
      simp only [hgd] at h
      simp at h
    | some d =>
      obtain ⟨idx, _, hfs1⟩ := rm_success_elim hgd h
      subst hfs1
      refine ⟨?_, by rw [List.length_set]⟩
      refine FsOk_set fs cwd d _ hgd rfl rfl rfl ?_ hok
      intro hnodup
      have hsubl : List.Sublist ((d.files.eraseIdx idx).map File.name)
          (d.files.map File.name) :=
        (List.eraseIdx_sublist d.files idx).map File.name
      exact hnodup.sublist (hsubl.append_right _)

/-- `mv` (with a destination unaffected by truncation) preserves arena
well-formedness and the arena length. -/
theorem mv_preserves_FsOk (fs : FS) (cwd : Nat) (src dst : String)
    (hshort : truncName dst = dst) (hok : FsOk fs) :
    FsOk (mv_cmd fs cwd src dst).1 ∧
    fs.nodes.length ≤ (mv_cmd fs cwd src dst).1.nodes.length := by
  rcases h : mv_cmd fs cwd src dst with ⟨fs1, e⟩
  show FsOk fs1 ∧ fs.nodes.length ≤ fs1.nodes.length
  cases e with
  | some e =>
    rw [mv_err_unchanged h]
    exact ⟨hok, Nat.le_refl _⟩
  | none =>
    cases hgd : getDir fs cwd with
    | none =>
      exfalso
      unfold mv_cmd at h
      simp only [hgd] at h
      simp at h
    | some d =>
      cases hsrc : find_file_index d src with
      | none =>
        exfalso
        unfold mv_cmd at h
        simp only [hgd, hsrc] at h
        simp at h
      | some idx =>
        obtain ⟨hdf, hds, f, hf, hfs1⟩ := mv_success_elim hgd hsrc h
        subst hfs1
        refine ⟨?_, by rw [List.length_set]⟩
        have hnA : dst ∉ d.files.map File.name := not_mem_file_names hdf
        have hnB : dst ∉ d.subdirs.map (childDirName fs) := not_mem_subdir_names hds
        refine FsOk_set fs cwd d _ hgd rfl rfl rfl ?_ hok
        intro hnodup
        have hmap : ({ d with files := d.files.set idx { f with name := truncName dst } } :
            Dir).files.map File.name = (d.files.map File.name).set idx dst := by
          simp [hshort]
        rw [hmap]
        exact nodup_set_append hnodup hnA hnB

/-- `mkdir` (with a name unaffected by truncation) preserves arena
well-formedness and never shrinks the arena. -/
theorem mkdir_preserves_FsOk (fs : FS) (cwd : Nat) (n : String)
    (hshort : truncName n = n) (hok : FsOk fs) :
    FsOk (mkdir_cmd fs cwd n).1 ∧
    fs.nodes.length ≤ (mkdir_cmd fs cwd n).1.nodes.length := by
  rcases h : mkdir_cmd fs cwd n with ⟨fs1, e⟩
  show FsOk fs1 ∧ fs.nodes.length ≤ fs1.nodes.length
  cases e with
  | some e =>
    rw [mkdir_err_unchanged h]
    exact ⟨hok, Nat.le_refl _⟩
  | none =>
    cases hgd : getDir fs cwd with
    | none =>
      exfalso
      unfold mkdir_cmd at h
      simp only [hgd] at h
      simp at h
    | some d =>
      obtain ⟨_, hsub, hfile, hfs1⟩ := mkdir_success_elim hgd h
      subst hfs1
      obtain ⟨hval, hpar, hnames⟩ := hok
      have hmemd : d ∈ fs.nodes := mem_of_getDir hgd
      have hcwdlt : cwd < fs.nodes.length := getDir_lt hgd
      obtain ⟨d1, hd1⟩ : ∃ d1, ({ d with subdirs := d.subdirs ++ [fs.nodes.length] } : Dir)
          = d1 := ⟨_, rfl⟩
      rw [hd1]
      have hlen1 : ((fs.nodes.set cwd d1) ++ [create_dir n (some cwd)]).length
          = fs.nodes.length + 1 := by
        rw [List.length_append, List.length_set]
        rfl
      have hsubs1 : d1.subdirs = d.subdirs ++ [fs.nodes.length] := by rw [← hd1]
      have hname1 : d1.name = d.name := by rw [← hd1]
      have hpar1 : d1.parent = d.parent := by rw [← hd1]
      have hfiles1 : d1.files = d.files := by rw [← hd1]
      have hmm : ∀ dd, dd ∈ (fs.nodes.set cwd d1) ++ [create_dir n (some cwd)] →
          dd ∈ fs.nodes ∨ dd = d1 ∨ dd = create_dir n (some cwd) := by
        intro dd hdd
        rcases List.mem_append.mp hdd with hdd | hdd
        · rcases List.mem_or_eq_of_mem_set hdd with hdd | hdd
          · exact Or.inl hdd
          · exact Or.inr (Or.inl hdd)
        · rcases List.mem_singleton.mp hdd with rfl
          exact Or.inr (Or.inr rfl)
      have hcdn : ∀ c, c < fs.nodes.length →
          childDirName { nodes := (fs.nodes.set cwd d1) ++ [create_dir n (some cwd)] } c
          = childDirName fs c := by
        intro c hc
        exact childDirName_set_append d1 [create_dir n (some cwd)] hgd hname1 hc
      have hcdnew : childDirName { nodes := (fs.nodes.set cwd d1) ++
          [create_dir n (some cwd)] } fs.nodes.length = n := by
        have hg : getDir { nodes := (fs.nodes.set cwd d1) ++ [create_dir n (some cwd)] }
            fs.nodes.length = some (create_dir n (some cwd)) := by
          unfold getDir
          exact getElem_concat_of_length (List.length_set fs.nodes _ _)
        unfold childDirName
        rw [hg]
        exact hshort
      refine ⟨⟨?_, ?_, ?_⟩, ?_⟩
      · intro dd hdd c hc
        show c < ((fs.nodes.set cwd d1) ++ [create_dir n (some cwd)]).length
        rw [hlen1]
        rcases hmm dd hdd with hdd2 | rfl | rfl
        · exact Nat.lt_succ_of_lt (hval dd hdd2 c hc)
        · rw [hsubs1] at hc
          rcases List.mem_append.mp hc with hc | hc
          · exact Nat.lt_succ_of_lt (hval d hmemd c hc)
          · rcases List.mem_singleton.mp hc with rfl
            exact Nat.lt_succ_self _
        · exfalso
          simp [create_dir] at hc
      · intro dd hdd p hp
        show p < ((fs.nodes.set cwd d1) ++ [create_dir n (some cwd)]).length
        rw [hlen1]
        rcases hmm dd hdd with hdd2 | rfl | rfl
        · exact Nat.lt_succ_of_lt (hpar dd hdd2 p hp)
        · rw [hpar1] at hp
          exact Nat.lt_succ_of_lt (hpar d hmemd p hp)
        · have hpc : p = cwd := by
            simp [create_dir] at hp
            exact hp.symm
          rw [hpc]
          exact Nat.lt_succ_of_lt hcwdlt
      · intro dd hdd
        rcases hmm dd hdd with hdd2 | rfl | rfl
        · rw [List.map_congr_left fun c hc => hcdn c (hval dd hdd2 c hc)]
          exact hnames dd hdd2
        · rw [hfiles1, hsubs1, List.map_append]
          rw [List.map_congr_left fun c hc => hcdn c (hval d hmemd c hc)]
          simp only [List.map_cons, List.map_nil]
          rw [hcdnew, ← List.append_assoc]
          refine nodup_concat (hnames d hmemd) ?_
          intro hin
          rcases List.mem_append.mp hin with hin | hin
          · exact not_mem_file_names hfile hin
          · exact not_mem_subdir_names hsub hin
        · simp [create_dir]
      · show fs.nodes.length ≤ ((fs.nodes.set cwd d1) ++ [create_dir n (some cwd)]).length
        rw [hlen1]
        exact Nat.le_succ _

/-- One dispatch step preserves the session invariant (for commands
whose stored names are unaffected by truncation). -/
theorem step_preserves_Inv (s : St) (c : Cmd) (hc : shortCmd c) (hinv : Inv s) :
    Inv (step s c).1 := by
  obtain ⟨hcwd, hok⟩ := hinv
  cases c with
  | touch n =>
    obtain ⟨h1, h2⟩ := touch_preserves_FsOk s.fs s.cwd n hc hok
    exact ⟨Nat.lt_of_lt_of_le hcwd h2, h1⟩
  | mkdir n =>
    obtain ⟨h1, h2⟩ := mkdir_preserves_FsOk s.fs s.cwd n hc hok
    exact ⟨Nat.lt_of_lt_of_le hcwd h2, h1⟩
  | rm n =>
    obtain ⟨h1, h2⟩ := rm_preserves_FsOk s.fs s.cwd n hok
    exact ⟨Nat.lt_of_lt_of_le hcwd h2, h1⟩
  | mv a b =>
    obtain ⟨h1, h2⟩ := mv_preserves_FsOk s.fs s.cwd a b hc hok
    exact ⟨Nat.lt_of_lt_of_le hcwd h2, h1⟩
  | cd a =>
    refine ⟨?_, hok⟩
    show (cd_cmd s.fs s.cwd a 0).1 < s.fs.nodes.length
    obtain ⟨hval, hpar, _⟩ := hok
    rcases cd_result_cases s.fs s.cwd a 0 with h | h | ⟨d, p, hd, hp, h⟩ | ⟨d, cc, hd, hcc, h⟩
    · rw [h]
      exact Nat.lt_of_le_of_lt (Nat.zero_le _) hcwd
    · rw [h]
      exact hcwd
    · rw [h]
      exact hpar d (mem_of_getDir hd) p hp
    · rw [h]
      exact hval d (mem_of_getDir hd) cc hcc

/-- The invariant holds along every run of truncation-free commands. -/
theorem run_preserves_Inv : ∀ (cmds : List Cmd) (s : St),
    (∀ c ∈ cmds, shortCmd c) → Inv s → Inv (run s cmds)
  | [], _, _, hinv => hinv
  | c :: cs, s, hall, hinv =>
    run_preserves_Inv cs (step s c).1 (fun x hx => hall x (List.mem_cons_of_mem c hx))
      (step_preserves_Inv s c (hall c (List.mem_cons_self c cs)) hinv)

/-- The initial state satisfies the invariant. -/
theorem Inv_initSt : Inv initSt := by
  unfold Inv FsOk validIds parentsOk namesOk
  refine ⟨by decide, ?_, ?_, ?_⟩
  · intro d hd c hc
    rcases List.mem_singleton.mp hd with rfl
    simp [create_dir] at hc
  · intro d hd p hp
    rcases List.mem_singleton.mp hd with rfl
    simp [create_dir] at hp
  · intro d hd
    rcases List.mem_singleton.mp hd with rfl
    simp [create_dir]

/-- Claim C2 (amended): for every directory of a state reachable from
the initial root by `touch`/`mkdir`/`mv`/`rm`/`cd` commands whose stored
name arguments are unaffected by the `NAME_LEN - 1 = 31`-character
truncation, no two direct children (files and subdirectories together)
share a name.  In particular, after a successful `touch n` a `mkdir n`
in the same directory fails — with `NameCollision` whenever the
subdirectory collection is below capacity (otherwise the earlier
capacity check reports `CapacityExceeded` first) — and after a
successful `mkdir n` a `touch n` fails likewise: with `NameCollision`
whenever the file collection is below capacity in the `L2.c` variant,
and with `NameCollision` unconditionally in the `linux-commands.c`
variant. -/
theorem C2_unique_child_names :
    (∀ cmds : List Cmd, (∀ c ∈ cmds, shortCmd c) →
      ∀ d ∈ (run initSt cmds).fs.nodes,
        (d.files.map File.name
          ++ d.subdirs.map (childDirName (run initSt cmds).fs)).Nodup) ∧
    (∀ fs cwd d n fs1, getDir fs cwd = some d → truncName n = n →
      touch_cmd fs cwd n = (fs1, none) →
      ∃ e, mkdir_cmd fs1 cwd n = (fs1, some e) ∧
        (d.subdirs.length < MAX_SUBDIRS → e = Err.NameCollision)) ∧
    (∀ fs cwd d n fs1, getDir fs cwd = some d → truncName n = n →
      mkdir_cmd fs cwd n = (fs1, none) →
      (∃ e, touch_cmd fs1 cwd n = (fs1, some e) ∧
        (d.files.length < MAX_FILES → e = Err.NameCollision)) ∧
      touch_cmd_lc fs1 cwd n = (fs1, some Err.NameCollision)) := by
  refine ⟨?_, ?_, ?_⟩
  · intro cmds hshort
    exact (run_preserves_Inv cmds initSt hshort Inv_initSt).2.2.2
  · intro fs cwd d n fs1 hd hshort ht
    obtain ⟨_, _, _, hfs1⟩ := touch_success_elim hd ht
    obtain ⟨d1, hd1⟩ :
        ∃ d1,
          ({ d with files := d.files ++
              [{ name := truncName n, size := 0, perm := "rw-", content := "" }] } : Dir) = d1 :=
      ⟨_, rfl⟩
    rw [hd1] at hfs1
    subst hfs1
    have hgd1 : getDir { nodes := fs.nodes.set cwd d1 } cwd = some d1 := by
      unfold getDir
      exact List.getElem?_set_self (getDir_lt hd)
    have hfl1 : d1.files = d.files ++
        [{ name := truncName n, size := 0, perm := "rw-", content := "" }] := by
      rw [← hd1]
    have hsd1 : d1.subdirs = d.subdirs := by rw [← hd1]
    have hfisome : (find_file_index d1 n).isSome := by
      unfold find_file_index
      rw [List.findIdx?_isSome, hfl1]
      simp [hshort]
    by_cases hc : MAX_SUBDIRS ≤ d1.subdirs.length
    · refine ⟨Err.CapacityExceeded, ?_, ?_⟩
      · unfold mkdir_cmd
        simp only [hgd1]
        rw [if_pos hc]
      · intro hlt
        exfalso
        rw [hsd1] at hc
        exact absurd hc (Nat.not_le.mpr hlt)
    · refine ⟨Err.NameCollision, ?_, fun _ => rfl⟩
      unfold mkdir_cmd
      simp only [hgd1]
      rw [if_neg hc, if_pos (Or.inr hfisome)]
  · intro fs cwd d n fs1 hd hshort hm
    obtain ⟨_, _, hfile, hfs1⟩ := mkdir_success_elim hd hm
    obtain ⟨d1, hd1⟩ :
        ∃ d1, ({ d with subdirs := d.subdirs ++ [fs.nodes.length] } : Dir) = d1 := ⟨_, rfl⟩
    rw [hd1] at hfs1
    subst hfs1
    have hgd1 : getDir { nodes := fs.nodes.set cwd d1 ++ [create_dir n (some cwd)] } cwd
        = some d1 := by
      unfold getDir
      rw [List.getElem?_append_left (by rw [List.length_set]; exact getDir_lt hd),
        List.getElem?_set_self (getDir_lt hd)]
    have hsd1 : d1.subdirs = d.subdirs ++ [fs.nodes.length] := by rw [← hd1]
    have hfl1 : d1.files = d.files := by rw [← hd1]
    have hnew : childDirName { nodes := fs.nodes.set cwd d1 ++ [create_dir n (some cwd)] }
        fs.nodes.length = n := by
      have hg : getDir { nodes := fs.nodes.set cwd d1 ++ [create_dir n (some cwd)] }
          fs.nodes.length = some (create_dir n (some cwd)) := by
        unfold getDir
        exact getElem_concat_of_length (List.length_set fs.nodes _ _)
      unfold childDirName
      rw [hg]
      exact hshort
    have hsisome : (find_subdir_index { nodes := fs.nodes.set cwd d1 ++
        [create_dir n (some cwd)] } d1 n).isSome := by
      unfold find_subdir_index
      rw [List.findIdx?_isSome, hsd1]
      simp [hnew]
    have hf1 : find_file_index d1 n = none := by
      unfold find_file_index at hfile ⊢
      rw [hfl1]
      exact hfile
    refine ⟨?_, ?_⟩
    · by_cases hcapf : MAX_FILES ≤ d1.files.length
      · refine ⟨Err.CapacityExceeded, ?_, ?_⟩
        · unfold touch_cmd
          simp only [hgd1, hf1, Option.isSome_none, Bool.false_eq_true, if_false]
          rw [if_pos hcapf]
        · intro hlt
          exfalso
          rw [hfl1] at hcapf
          exact absurd hcapf (Nat.not_le.mpr hlt)
      · refine ⟨Err.NameCollision, ?_, fun _ => rfl⟩
        unfold touch_cmd
        simp only [hgd1, hf1, Option.isSome_none, Bool.false_eq_true, if_false]
        rw [if_neg hcapf, if_pos hsisome]
    · unfold touch_cmd_lc
      simp only [hgd1]
      rw [if_pos (Or.inr hsisome)]

/-- Counterexample to C2 as stated: the two distinct 32-character names
`a…a` and `a…ab` are both accepted by `touch` at the empty root (the
collision checks compare the full arguments), but both are stored
truncated to the same 31 characters — the root then has two direct
children with the same name. -/
theorem C2_duplicate_names_counterexample :
    runOuts initSt [.touch (String.mk (List.replicate 32 'a')),
      .touch (String.mk (List.replicate 31 'a' ++ ['b']))] = [none, none] ∧
    (getDir (run initSt [.touch (String.mk (List.replicate 32 'a')),
        .touch (String.mk (List.replicate 31 'a' ++ ['b']))]).fs 0).map
      (fun d => d.files.map File.name)
      = some [String.mk (List.replicate 31 'a'), String.mk (List.replicate 31 'a')] ∧
    ¬ ([String.mk (List.replicate 31 'a'), String.mk (List.replicate 31 'a')] :
        List String).Nodup := by
  exact ⟨by decide, by decide, by decide⟩

/-- Witness for C2: the run `touch x; mkdir y` keeps all child names
distinct, `mkdir z` directly after a successful `touch z` collides, and
`touch w` (both variants) directly after a successful `mkdir w`
collides. -/
theorem C2_unique_child_names_witness :
    (∀ d ∈ (run initSt [.touch "x", .mkdir "y"]).fs.nodes,
      (d.files.map File.name
        ++ d.subdirs.map (childDirName (run initSt [.touch "x", .mkdir "y"]).fs)).Nodup) ∧
    (∃ e, mkdir_cmd (touch_cmd initSt.fs 0 "z").1 0 "z"
        = ((touch_cmd initSt.fs 0 "z").1, some e) ∧
      ((create_dir "/" none).subdirs.length < MAX_SUBDIRS → e = Err.NameCollision)) ∧
    (∃ e, touch_cmd (mkdir_cmd initSt.fs 0 "w").1 0 "w"
        = ((mkdir_cmd initSt.fs 0 "w").1, some e) ∧
      ((create_dir "/" none).files.length < MAX_FILES → e = Err.NameCollision)) ∧
    touch_cmd_lc (mkdir_cmd initSt.fs 0 "w").1 0 "w"
      = ((mkdir_cmd initSt.fs 0 "w").1, some Err.NameCollision) := by
  obtain ⟨h1, h2, h3⟩ := C2_unique_child_names
  have hw := h3 initSt.fs 0 (create_dir "/" none) "w" (mkdir_cmd initSt.fs 0 "w").1
    rfl (by decide) (by decide)
  refine ⟨?_, ?_, hw.1, hw.2⟩
  · refine h1 [.touch "x", .mkdir "y"] ?_
    intro c hc
    rcases List.mem_cons.mp hc with rfl | hc
    · exact (by decide : truncName "x" = "x")
    rcases List.mem_cons.mp hc with rfl | hc
    · exact (by decide : truncName "y" = "y")
    cases hc
  · exact h2 initSt.fs 0 (create_dir "/" none) "z" (touch_cmd initSt.fs 0 "z").1
      rfl (by decide) (by decide)

end PL
